import Mathlib

/-!
# Wayback selection (`main.go`)

A shallow embedding of the selection code of `main.go`: `Wayback.Find`,
`Wayback.FindFirst`, `Wayback.FindFirstTag` and `Tag`, together with the parts of
the go-git and Go standard library interfaces they consume (`time.Time.Before`,
`object.CommitIter`, `storer.ReferenceIter`, `Repository.Tags`,
`Repository.CommitObject`, `Repository.Head`, `sort.Sort`, `sort.Reverse`).

Go's `(value, error)` pairs are kept as they are: a pointer result is an `Option`,
the `error` interface value is an `Option Error` (`none` is Go's `nil`).
Debug printing (`wayback.Debug`) writes to standard output only and is not modelled.
-/

namespace VgoWayback

/-! ## Data model -/

/-- An instant of `time.Time`, as its integer position on the time line (the
examples count seconds since the Unix epoch). -/
abbrev Time := Int

/-- Go's `t.Before(u)`: the instant `t` is strictly earlier than `u`. -/
def Before (t u : Time) : Bool := decide (t < u)

/-- Go `error` values that the code tells apart. `EOF` is `io.EOF`, `NotFound` is the
package variable `NotFound = fmt.Errorf("Reference not found")`, `other` is any other
error value. -/
inductive Error where
  | EOF
  | NotFound
  | other (msg : String)
  deriving DecidableEq, Repr

/-- The type `plumbing.Hash` (twenty bytes), represented by its hexadecimal
rendering: `Hash.String` is injective on hashes. -/
structure Hash where
  hex : String
  deriving DecidableEq, Repr

/-- Go's `Hash.String()`. -/
def Hash.String (h : Hash) : String := h.hex

/-- The type `object.Signature`; only `When` is read. -/
structure Signature where
  When : Time
  deriving DecidableEq, Repr

/-- The type `object.Commit`; only `Hash` and `Committer.When` are read. -/
structure Commit where
  Hash : Hash
  Committer : Signature
  deriving DecidableEq, Repr

/-- The type `plumbing.ReferenceName`, with the result of its `Short()` method. -/
structure ReferenceName where
  Short : String
  deriving DecidableEq, Repr

/-- The type `plumbing.Reference`: `Name()` and `Hash()`. -/
structure Reference where
  Name : ReferenceName
  Hash : Hash
  deriving DecidableEq, Repr

/-- The struct `TagInfo` (lines 61-65). -/
structure TagInfo where
  Tag : String
  Hash : Hash
  When : Time
  deriving DecidableEq, Repr

/-! ## Iterators -/

/-- What one call of an iterator's `Next()` yields before the end of the
sequence: an element with a nil error, or a nil element with an error. -/
inductive IterStep (α : Type) where
  | item (x : α)
  | fail (e : Error)
  deriving DecidableEq, Repr

/-- A method call made on an iterator. -/
inductive IterEvent where
  | Next
  | Close
  deriving DecidableEq, Repr

/-- An iterator (`object.CommitIter`, `storer.ReferenceIter`): the steps it has
still to yield and the calls made on it so far, oldest first. Once `pending` is
empty `Next()` yields `io.EOF`. -/
structure Iter (α : Type) where
  pending : List (IterStep α)
  events : List IterEvent
  deriving DecidableEq, Repr

/-- The interface `object.CommitIter`. -/
abbrev CommitIter := Iter Commit

/-- The interface `storer.ReferenceIter`. -/
abbrev ReferenceIter := Iter Reference

/-- The method `Next()`: the pair `(element, error)` it returns and the iterator
afterwards. -/
def Iter.Next {α : Type} (it : Iter α) : (Option α × Option Error) × Iter α :=
  match it.pending with
  | [] => ((none, some Error.EOF), ⟨[], it.events ++ [IterEvent.Next]⟩)
  | IterStep.item x :: rest => ((some x, none), ⟨rest, it.events ++ [IterEvent.Next]⟩)
  | IterStep.fail e :: rest => ((none, some e), ⟨rest, it.events ++ [IterEvent.Next]⟩)

/-- The method `Close()`. -/
def Iter.Close {α : Type} (it : Iter α) : Iter α :=
  ⟨it.pending, it.events ++ [IterEvent.Close]⟩

/-! ## Repository -/

/-- The part of `*git.Repository` that the code calls: `Head()`, `Tags()` (the
steps of the reference iterator it returns, or an error) and `CommitObject(h)`.
The repository is only read, so `CommitObject` is a function of the hash. -/
structure Repository where
  Head : Except Error Reference
  Tags : Except Error (List (IterStep Reference))
  CommitObject : Hash → Except Error Commit

/-- The struct `Wayback` (lines 53-59). -/
structure Wayback where
  Debug : Bool
  Repository : Repository
  RequireTagInfo : Bool
  When : Time
  CommitIter : CommitIter

/-- The function `NewWayback` (lines 75-77); `Debug` is left at its zero value. -/
def NewWayback (r : Repository) (requireTagInfo : Bool) (when : Time)
    (commitIter : CommitIter) : Wayback :=
  ⟨false, r, requireTagInfo, when, commitIter⟩

/-- The named results `(c, tag, err)` of `Find`, `FindFirst` and `FindFirstTag`. -/
structure Result where
  c : Option Commit
  tag : String
  err : Option Error
  deriving DecidableEq, Repr

/-- A call's results together with the iterators it has used: the commit iterator
of the `Wayback` afterwards, and the tag iterator if one was acquired. -/
structure Outcome where
  result : Result
  commitIter : CommitIter
  tagIter : Option ReferenceIter
  deriving DecidableEq, Repr

/-! ## Sorting -/

/-- The slice type `ByCommitTimeTagInfo` (line 68). -/
abbrev ByCommitTimeTagInfo := List TagInfo

/-- The method `ByCommitTimeTagInfo.Less` (line 71), on the two elements
compared: `tags[i].When.Before(tags[j].When)`. -/
def ByCommitTimeTagInfo.Less (a b : TagInfo) : Bool := Before a.When b.When

/-- Go's `sort.Reverse`: the `Less(i, j)` of the wrapper is the `Less(j, i)` of the
wrapped value. -/
def Reverse (less : TagInfo → TagInfo → Bool) : TagInfo → TagInfo → Bool :=
  fun a b => less b a

/-- The requirement `sort.Sort` puts on `Less`: a strict weak ordering. -/
def StrictWeakOrder (less : TagInfo → TagInfo → Bool) : Prop :=
  (∀ a, less a a = false) ∧
  (∀ a b c, less a b = true → less b c = true → less a c = true) ∧
  (∀ a b c, less a b = false → less b c = false → less a c = false)

/-- Go's `sort.Sort`, by its documented contract: the data is rearranged (only
through `Swap`, hence permuted) into ascending order as determined by `Less`, that
is, no element is `Less` than one placed before it. The order among elements that
compare equal is left to the implementation (the sort is not guaranteed to be
stable), so every statement below is about all implementations. -/
structure SortAlgorithm where
  apply : (TagInfo → TagInfo → Bool) → List TagInfo → List TagInfo
  perm : ∀ less xs, (apply less xs).Perm xs
  sorted : ∀ less xs, StrictWeakOrder less →
    (apply less xs).Pairwise (fun a b => less b a = false)

/-- An implementation of `sort.Sort`: insertion sort, which is stable. It is what
`sort.Sort` runs on slices of at most twelve elements since Go 1.19, and what it
amounts to on slices of at most six elements before. -/
def insertionSortAlgorithm : SortAlgorithm where
  apply less xs := List.insertionSort (fun a b => less b a = false) xs
  perm less xs := List.perm_insertionSort _ xs
  sorted less xs h := by
    haveI : IsTotal TagInfo (fun a b => less b a = false) :=
      ⟨fun a b => by
        by_contra hc
        push_neg at hc
        have h1 : less b a = true := by simpa using hc.1
        have h2 : less a b = true := by simpa using hc.2
        have h3 := h.2.1 a b a h2 h1
        rw [h.1 a] at h3
        exact Bool.noConfusion h3⟩
    haveI : IsTrans TagInfo (fun a b => less b a = false) :=
      ⟨fun a b c hab hbc => h.2.2 c b a hbc hab⟩
    exact List.sorted_insertionSort _ xs

/-- The exchanges of a shell pass with gap 6 over a slice of at most twelve
elements, where `front` holds the first six elements and `back` the rest: in Go,
`for i := a + 6; i < b; i++ { if data.Less(i, i-6) { data.Swap(i, i-6) } }`, so the
element at `i` changes places with the one at `i-6` when it is `Less`. -/
def shellPass.swap (less : TagInfo → TagInfo → Bool) :
    List TagInfo → List TagInfo → List TagInfo × List TagInfo
  | a :: front, b :: back =>
      let p := shellPass.swap less front back
      if less b a then (b :: p.1, a :: p.2) else (a :: p.1, b :: p.2)
  | front, [] => (front, [])
  | [], back => ([], back)

/-- The shell pass with gap 6 that `quickSort` of Go's `sort` package (up to Go 1.18)
runs before its insertion sort on a slice of at most twelve elements. -/
def shellPass (less : TagInfo → TagInfo → Bool) (xs : List TagInfo) : List TagInfo :=
  let p := shellPass.swap less (xs.take 6) (xs.drop 6)
  p.1 ++ p.2

/-- An implementation of `sort.Sort`: a shell pass with gap 6, then insertion sort.
On slices of at most twelve elements this is what `sort.Sort` runs up to Go 1.18
(`quickSort` skips its partition loop for `b-a <= 12`); on longer slices, where Go
partitions first, it is still a sort that meets the contract. -/
def shellSortAlgorithm : SortAlgorithm where
  apply less xs := List.insertionSort (fun a b => less b a = false) (shellPass less xs)
  perm less xs := by
    have hswap : ∀ front back : List TagInfo,
        ((shellPass.swap less front back).1 ++ (shellPass.swap less front back).2).Perm
          (front ++ back) := by
      intro front
      induction front with
      | nil => intro back; cases back <;> simp [shellPass.swap]
      | cons a front ih =>
          intro back
          cases back with
          | nil => simp [shellPass.swap]
          | cons b back =>
              have h := ih back
              simp only [shellPass.swap]
              split
              · exact ((List.perm_middle.trans (List.Perm.cons a (List.Perm.cons b h))).trans
                  (List.Perm.cons a List.perm_middle.symm)).trans (by simp)
              · exact (List.Perm.cons a (List.perm_middle.trans
                  ((List.Perm.cons b h).trans List.perm_middle.symm))).trans (by simp)
    have hpass : (shellPass less xs).Perm xs := by
      have h := hswap (xs.take 6) (xs.drop 6)
      rw [List.take_append_drop] at h
      exact h
    exact (List.perm_insertionSort _ _).trans hpass
  sorted less xs h := by
    haveI : IsTotal TagInfo (fun a b => less b a = false) :=
      ⟨fun a b => by
        by_contra hc
        push_neg at hc
        have h1 : less b a = true := by simpa using hc.1
        have h2 : less a b = true := by simpa using hc.2
        have h3 := h.2.1 a b a h2 h1
        rw [h.1 a] at h3
        exact Bool.noConfusion h3⟩
    haveI : IsTrans TagInfo (fun a b => less b a = false) :=
      ⟨fun a b c hab hbc => h.2.2 c b a hbc hab⟩
    exact List.sorted_insertionSort _ _

/-! ## `Wayback.FindFirst` (lines 87-109) -/

/-- The `for` loop of `FindFirst` (lines 93-107), by recursion on the steps the
commit iterator has still to yield; `events` are the calls made on the iterator
so far. Each equation is one outcome of `wayback.CommitIter.Next()`:
* no step left: `Next` returns `(nil, io.EOF)`, the loop breaks and line 108
  returns the named results as they stand, `c = nil` and `err = io.EOF`;
* an error step: `io.EOF` breaks in the same way, any other error sets `c = nil`
  and returns (lines 97-100);
* a commit: returned with `err = nil` if `c.Committer.When.Before(wayback.When)`
  (lines 104-106), otherwise the loop goes on. -/
def FindFirst.loop (when : Time) :
    List (IterStep Commit) → List IterEvent → Result × CommitIter
  | [], events => (⟨none, "", some Error.EOF⟩, ⟨[], events ++ [IterEvent.Next]⟩)
  | IterStep.fail e :: rest, events =>
      if e = Error.EOF then
        (⟨none, "", some Error.EOF⟩, ⟨rest, events ++ [IterEvent.Next]⟩)
      else
        (⟨none, "", some e⟩, ⟨rest, events ++ [IterEvent.Next]⟩)
  | IterStep.item c :: rest, events =>
      if Before c.Committer.When when then
        (⟨some c, "", none⟩, ⟨rest, events ++ [IterEvent.Next]⟩)
      else
        FindFirst.loop when rest (events ++ [IterEvent.Next])

/-- The method `Wayback.FindFirst`. -/
def FindFirst (w : Wayback) : Outcome :=
  let r := FindFirst.loop w.When w.CommitIter.pending w.CommitIter.events
  ⟨r.1, r.2, none⟩

/-! ## `Wayback.FindFirstTag` (lines 111-161) -/

/-- The first loop of `FindFirstTag` (lines 123-137), by recursion on the steps of
the tag iterator, with the slice collected so far and the named result `c` as it
stands. It ends with `Except.error e` where the code returns early (`c = nil`,
`err = e`: lines 127-130 and 131-134) and with the slice and `c` where the loop
breaks on `io.EOF`. -/
def FindFirstTag.collect (repo : Repository) :
    List (IterStep Reference) → List IterEvent → ByCommitTimeTagInfo → Option Commit →
    Except Error (ByCommitTimeTagInfo × Option Commit) × ReferenceIter
  | [], events, acc, c => (Except.ok (acc, c), ⟨[], events ++ [IterEvent.Next]⟩)
  | IterStep.fail e :: rest, events, acc, c =>
      if e = Error.EOF then
        (Except.ok (acc, c), ⟨rest, events ++ [IterEvent.Next]⟩)
      else
        (Except.error e, ⟨rest, events ++ [IterEvent.Next]⟩)
  | IterStep.item ref :: rest, events, acc, _ =>
      match repo.CommitObject ref.Hash with
      | Except.error e => (Except.error e, ⟨rest, events ++ [IterEvent.Next]⟩)
      | Except.ok c =>
          FindFirstTag.collect repo rest (events ++ [IterEvent.Next])
            (acc ++ [⟨ref.Name.Short, ref.Hash, c.Committer.When⟩]) (some c)

/-- The second loop of `FindFirstTag` and the lines after it (lines 145-160), by
recursion on the sorted slice, with the named result `c` as it stands: each
element's commit is resolved again; a failure returns `c = nil` and the error; a
commit before the cutoff returns with the element's tag and `err = nil`; when the
slice is exhausted `err = NotFound` is set and the named results are returned as
they stand. -/
def FindFirstTag.scan (repo : Repository) (when : Time) :
    List TagInfo → Option Commit → Result
  | [], c => ⟨c, "", some Error.NotFound⟩
  | tagInfo :: rest, _ =>
      match repo.CommitObject tagInfo.Hash with
      | Except.error e => ⟨none, "", some e⟩
      | Except.ok c =>
          if Before c.Committer.When when then
            ⟨some c, tagInfo.Tag, none⟩
          else
            FindFirstTag.scan repo when rest (some c)

/-- The method `Wayback.FindFirstTag`. The commit iterator of the `Wayback` is not
touched; the tag iterator obtained from `Repository.Tags()` starts with no calls
made on it. -/
def FindFirstTag (sort : SortAlgorithm) (w : Wayback) : Outcome :=
  match w.Repository.Tags with
  | Except.error e => ⟨⟨none, "", some e⟩, w.CommitIter, none⟩
  | Except.ok steps =>
      match FindFirstTag.collect w.Repository steps [] [] none with
      | (Except.error e, tags) => ⟨⟨none, "", some e⟩, w.CommitIter, some tags⟩
      | (Except.ok (byCommitTimeTagInfo, c), tags) =>
          ⟨FindFirstTag.scan w.Repository w.When
              (sort.apply (Reverse ByCommitTimeTagInfo.Less) byCommitTimeTagInfo) c,
            w.CommitIter, some tags⟩

/-! ## `Wayback.Find` (lines 79-85) -/

/-- The method `Wayback.Find`: the deferred `wayback.CommitIter.Close()` runs when
the selected method has returned. -/
def Find (sort : SortAlgorithm) (w : Wayback) : Outcome :=
  if w.RequireTagInfo then
    let o := FindFirstTag sort w
    ⟨o.result, o.commitIter.Close, o.tagIter⟩
  else
    let o := FindFirst w
    ⟨o.result, o.commitIter.Close, o.tagIter⟩

/-! ## `Tag` (lines 163-187) -/

/-- The named results `(tag, isTag, err)` of `Tag`. -/
structure TagResult where
  tag : String
  isTag : Bool
  err : Option Error
  deriving DecidableEq, Repr

/-- The call `tags.ForEach(...)` of lines 175-182 with its callback, by recursion on
the steps of the tag iterator; `tag` and `isTag` are the named results as they
stand. go-git's `ForEach` returns nil at `io.EOF` and the error at any other
failure of `Next`; the callback always returns nil. -/
def Tag.forEach (ref : Reference) :
    List (IterStep Reference) → String → Bool → TagResult
  | [], tag, isTag => ⟨tag, isTag, none⟩
  | IterStep.fail e :: _, tag, isTag =>
      if e = Error.EOF then ⟨tag, isTag, none⟩ else ⟨tag, isTag, some e⟩
  | IterStep.item _ref :: rest, tag, isTag =>
      if _ref.Hash.String = ref.Hash.String then
        Tag.forEach ref rest _ref.Name.Short true
      else
        Tag.forEach ref rest tag isTag

/-- The function `Tag`. -/
def Tag (repo : Repository) : TagResult :=
  match repo.Head with
  | Except.error e => ⟨"", false, some e⟩
  | Except.ok ref =>
      match repo.Tags with
      | Except.error e => ⟨"", false, some e⟩
      | Except.ok steps =>
          match Tag.forEach ref steps "" false with
          | ⟨tag, isTag, some e⟩ => ⟨tag, isTag, some e⟩
          | ⟨tag, isTag, none⟩ => ⟨tag, isTag, some Error.NotFound⟩

/-! ## Example data

Times are Unix seconds: `1505001600` is 2017-09-10, `1504310400` is 2017-09-02,
`1504224000` is 2017-09-01, `1503187200` is 2017-08-20, `1502755200` is 2017-08-15
(all at 00:00:00 UTC), `1504483200` is 2017-09-04 00:00:00 UTC and `1504543416` is
2017-09-04 19:43:36 +0300. -/

/-- A commit of 2017-09-10. -/
def commitSep10 : Commit := ⟨⟨"aa"⟩, ⟨1505001600⟩⟩

/-- A commit of 2017-09-02. -/
def commitSep02 : Commit := ⟨⟨"bb"⟩, ⟨1504310400⟩⟩

/-- A commit of 2017-09-01. -/
def commitSep01 : Commit := ⟨⟨"cc"⟩, ⟨1504224000⟩⟩

/-- A commit of 2017-08-20. -/
def commitAug20 : Commit := ⟨⟨"dd"⟩, ⟨1503187200⟩⟩

/-- A commit of 2017-08-15. -/
def commitAug15 : Commit := ⟨⟨"ee"⟩, ⟨1502755200⟩⟩

/-- The object store of the example repositories: the five commits above. -/
def exampleObjects (h : Hash) : Except Error Commit :=
  if h = ⟨"aa"⟩ then Except.ok commitSep10
  else if h = ⟨"bb"⟩ then Except.ok commitSep02
  else if h = ⟨"cc"⟩ then Except.ok commitSep01
  else if h = ⟨"dd"⟩ then Except.ok commitAug20
  else if h = ⟨"ee"⟩ then Except.ok commitAug15
  else Except.error (Error.other "object not found")

/-- The tag `v1` at the commit of 2017-09-10. -/
def tagV1 : Reference := ⟨⟨"v1"⟩, ⟨"aa"⟩⟩

/-- The tag `v2` at the commit of 2017-08-15. -/
def tagV2 : Reference := ⟨⟨"v2"⟩, ⟨"ee"⟩⟩

/-- The tag `v3` at the commit of 2017-09-02. -/
def tagV3 : Reference := ⟨⟨"v3"⟩, ⟨"bb"⟩⟩

/-- A tag whose target is not in the object store. -/
def tagDangling : Reference := ⟨⟨"broken"⟩, ⟨"ff"⟩⟩

/-- A repository with the given steps of tag enumeration, head at the commit of
2017-09-10. -/
def exampleRepo (tags : List (IterStep Reference)) : Repository :=
  ⟨Except.ok ⟨⟨"master"⟩, ⟨"aa"⟩⟩, Except.ok tags, exampleObjects⟩

/-- The commit log of the examples, newest first. -/
def exampleLog : CommitIter :=
  ⟨[IterStep.item commitSep10, IterStep.item commitSep01, IterStep.item commitAug20], []⟩


/-- Seven tags in enumeration order: `r1` and `r2` both at the commit of
2017-09-01, `r3` and `r4` at the commit of 2017-08-20, `r5` and `r6` at the commit
of 2017-08-15, `r7` at the commit of 2017-09-10. -/
def tiedTags : List Reference :=
  [⟨⟨"r1"⟩, ⟨"cc"⟩⟩, ⟨⟨"r2"⟩, ⟨"cc"⟩⟩, ⟨⟨"r3"⟩, ⟨"dd"⟩⟩, ⟨⟨"r4"⟩, ⟨"dd"⟩⟩,
   ⟨⟨"r5"⟩, ⟨"ee"⟩⟩, ⟨⟨"r6"⟩, ⟨"ee"⟩⟩, ⟨⟨"r7"⟩, ⟨"aa"⟩⟩]

/-- A commit log that is not newest-first. -/
def unsortedLog : CommitIter :=
  ⟨[IterStep.item commitSep10, IterStep.item commitAug20, IterStep.item commitSep01], []⟩

/-! ## Helper lemmas -/

theorem Before_eq_true_iff (t u : Time) : Before t u = true ↔ t < u := by
  simp [Before]

theorem Before_eq_false_iff (t u : Time) : Before t u = false ↔ u ≤ t := by
  simp [Before]

/-- The loop of `FindFirst` in terms of the iterator's `Next`: one call, then the
branches of lines 94-106 on the pair it returns. -/
theorem FindFirst_loop_eq_Next (when : Time) (it : CommitIter) :
    FindFirst.loop when it.pending it.events =
      match it.Next with
      | ((c, some e), it2) =>
          if e = Error.EOF then (⟨c, "", some Error.EOF⟩, it2) else (⟨none, "", some e⟩, it2)
      | ((some c, none), it2) =>
          if Before c.Committer.When when then (⟨some c, "", none⟩, it2)
          else FindFirst.loop when it2.pending it2.events
      | ((none, none), it2) => FindFirst.loop when it2.pending it2.events := by
  rcases it with ⟨pending, events⟩
  cases pending with
  | nil => simp [FindFirst.loop, Iter.Next]
  | cons s rest =>
      cases s with
      | item c => simp [FindFirst.loop, Iter.Next]
      | fail e => simp [FindFirst.loop, Iter.Next]

/-- The first loop of `FindFirstTag` in terms of the iterator's `Next`: one call,
then the branches of lines 124-136 on the pair it returns. -/
theorem FindFirstTag_collect_eq_Next (repo : Repository) (it : ReferenceIter)
    (acc : ByCommitTimeTagInfo) (c0 : Option Commit) :
    FindFirstTag.collect repo it.pending it.events acc c0 =
      match it.Next with
      | ((_, some e), it2) =>
          if e = Error.EOF then (Except.ok (acc, c0), it2) else (Except.error e, it2)
      | ((some ref, none), it2) =>
          match repo.CommitObject ref.Hash with
          | Except.error e => (Except.error e, it2)
          | Except.ok c =>
              FindFirstTag.collect repo it2.pending it2.events
                (acc ++ [⟨ref.Name.Short, ref.Hash, c.Committer.When⟩]) (some c)
      | ((none, none), it2) => FindFirstTag.collect repo it2.pending it2.events acc c0 := by
  rcases it with ⟨pending, events⟩
  cases pending with
  | nil => simp [FindFirstTag.collect, Iter.Next]
  | cons s rest =>
      cases s with
      | item r => simp [FindFirstTag.collect, Iter.Next]
      | fail e => simp [FindFirstTag.collect, Iter.Next]

/-- A list with an element satisfying `p` splits at the first such element. -/
theorem exists_first_match {α : Type} (p : α → Bool) :
    ∀ l : List α, (∃ x ∈ l, p x = true) →
      ∃ pre c post, l = pre ++ c :: post ∧ (∀ d ∈ pre, p d = false) ∧ p c = true
  | [], h => by
      obtain ⟨x, hx, _⟩ := h
      simp at hx
  | a :: l, h => by
      by_cases ha : p a = true
      · exact ⟨[], a, l, rfl, by simp, ha⟩
      · have hl : ∃ x ∈ l, p x = true := by
          obtain ⟨x, hx, hpx⟩ := h
          rcases List.mem_cons.1 hx with rfl | hx
          · exact absurd hpx ha
          · exact ⟨x, hx, hpx⟩
        obtain ⟨pre, c, post, hsplit, hpre, hc⟩ := exists_first_match p l hl
        refine ⟨a :: pre, c, post, by simp [hsplit], ?_, hc⟩
        intro d hd
        rcases List.mem_cons.1 hd with rfl | hd
        · simpa using ha
        · exact hpre d hd

/-- The loop of `FindFirst` passes over commits that are not before the cutoff,
making one call of `Next` for each. -/
theorem FindFirst_loop_skip (when : Time) (rest : List (IterStep Commit)) :
    ∀ (pre : List Commit) (events : List IterEvent),
      (∀ d ∈ pre, Before d.Committer.When when = false) →
      FindFirst.loop when (pre.map IterStep.item ++ rest) events =
        FindFirst.loop when rest (events ++ List.replicate pre.length IterEvent.Next)
  | [], events, _ => by simp
  | d :: pre, events, h => by
      have hd : Before d.Committer.When when = false := h d (by simp)
      have ih := FindFirst_loop_skip when rest pre (events ++ [IterEvent.Next])
        (fun x hx => h x (by simp [hx]))
      simp [FindFirst.loop, hd, ih, List.replicate_succ]

/-- C1: on an error-free commit sequence in non-increasing committer-time order
that contains a commit strictly before the cutoff, `FindFirst` returns, with a nil
error, the first such commit in iteration order, and no commit of the sequence
that is strictly before the cutoff is newer than it. -/
theorem FindFirst_sorted_returns_newest_before (w : Wayback) (cs : List Commit)
    (hiter : w.CommitIter.pending = cs.map IterStep.item)
    (hsorted : cs.Pairwise (fun a b => b.Committer.When ≤ a.Committer.When))
    (hex : ∃ c ∈ cs, Before c.Committer.When w.When = true) :
    ∃ pre c post, cs = pre ++ c :: post ∧
      (∀ d ∈ pre, Before d.Committer.When w.When = false) ∧
      Before c.Committer.When w.When = true ∧
      (FindFirst w).result = ⟨some c, "", none⟩ ∧
      ∀ d ∈ cs, Before d.Committer.When w.When = true →
        d.Committer.When ≤ c.Committer.When := by
  obtain ⟨pre, c, post, hsplit, hpre, hc⟩ :=
    exists_first_match (fun c => Before c.Committer.When w.When) cs hex
  refine ⟨pre, c, post, hsplit, hpre, hc, ?_, ?_⟩
  · have hp : w.CommitIter.pending =
        pre.map IterStep.item ++ IterStep.item c :: post.map IterStep.item := by
      rw [hiter, hsplit]; simp
    have hc2 : Before c.Committer.When w.When = true := hc
    simp only [FindFirst, hp]
    rw [FindFirst_loop_skip w.When _ pre _ hpre]
    simp [FindFirst.loop, hc2]
  · intro d hd hdb
    rw [hsplit] at hd hsorted
    rcases List.mem_append.1 hd with hd | hd
    · rw [hpre d hd] at hdb
      exact Bool.noConfusion hdb
    · rcases List.mem_cons.1 hd with rfl | hd
      · exact le_refl _
      · exact List.rel_of_pairwise_cons (List.pairwise_append.1 hsorted).2.1 hd

/-- C1, on the example of the specification: the commits of 2017-09-10, 2017-09-01
and 2017-08-20 with the cutoff 2017-09-04 give the commit of 2017-09-01. -/
theorem FindFirst_sorted_returns_newest_before_witness :
    (∃ pre c post, [commitSep10, commitSep01, commitAug20] = pre ++ c :: post ∧
      (∀ d ∈ pre, Before d.Committer.When 1504483200 = false) ∧
      Before c.Committer.When 1504483200 = true ∧
      (FindFirst (NewWayback (exampleRepo []) false 1504483200 exampleLog)).result =
        ⟨some c, "", none⟩ ∧
      ∀ d ∈ [commitSep10, commitSep01, commitAug20],
        Before d.Committer.When 1504483200 = true →
          d.Committer.When ≤ c.Committer.When) ∧
    (FindFirst (NewWayback (exampleRepo []) false 1504483200 exampleLog)).result =
      ⟨some commitSep01, "", none⟩ :=
  ⟨FindFirst_sorted_returns_newest_before
    (NewWayback (exampleRepo []) false 1504483200 exampleLog)
    [commitSep10, commitSep01, commitAug20] rfl (by decide) ⟨commitSep01, by decide⟩,
   by decide⟩


/-- Whatever the loop of `FindFirst` returns with a nil error is a commit strictly
before the cutoff. -/
theorem FindFirst_loop_nil_err (when : Time) :
    ∀ (steps : List (IterStep Commit)) (events : List IterEvent),
      (FindFirst.loop when steps events).1.err = none →
      ∃ c, (FindFirst.loop when steps events).1.c = some c ∧
        Before c.Committer.When when = true
  | [], events, h => by simp [FindFirst.loop] at h
  | IterStep.fail e :: rest, events, h => by
      by_cases he : e = Error.EOF <;> simp [FindFirst.loop, he] at h
  | IterStep.item c :: rest, events, h => by
      by_cases hc : Before c.Committer.When when = true
      · exact ⟨c, by simp [FindFirst.loop, hc], hc⟩
      · simp only [FindFirst.loop, hc] at h ⊢
        exact FindFirst_loop_nil_err when rest _ h

/-- The comparison that `FindFirstTag` sorts by is a strict weak ordering. -/
theorem strictWeakOrder_Reverse_Less :
    StrictWeakOrder (Reverse ByCommitTimeTagInfo.Less) := by
  refine ⟨?_, ?_, ?_⟩
  · intro a
    simp [Reverse, ByCommitTimeTagInfo.Less, Before]
  · intro a b c
    simp only [Reverse, ByCommitTimeTagInfo.Less, Before, decide_eq_true_eq]
    intro h1 h2
    exact lt_trans h2 h1
  · intro a b c
    simp only [Reverse, ByCommitTimeTagInfo.Less, Before, decide_eq_false_iff_not, not_lt]
    intro h1 h2
    exact le_trans h1 h2

/-- The first loop of `FindFirstTag` on an enumeration in which every tag
resolves: it collects one record for each tag, and nothing else. -/
theorem FindFirstTag_collect_ok (repo : Repository) :
    ∀ (refs : List Reference) (events : List IterEvent) (acc : ByCommitTimeTagInfo)
      (c0 : Option Commit),
      (∀ r ∈ refs, ∃ c, repo.CommitObject r.Hash = Except.ok c) →
      ∃ infos c1,
        (FindFirstTag.collect repo (refs.map IterStep.item) events acc c0).1 =
          Except.ok (acc ++ infos, c1) ∧
        (∀ ti ∈ infos, ∃ r ∈ refs, ∃ c, repo.CommitObject r.Hash = Except.ok c ∧
          ti = ⟨r.Name.Short, r.Hash, c.Committer.When⟩) ∧
        (∀ r ∈ refs, ∀ c, repo.CommitObject r.Hash = Except.ok c →
          (⟨r.Name.Short, r.Hash, c.Committer.When⟩ : TagInfo) ∈ infos)
  | [], events, acc, c0, _ => ⟨[], c0, by simp [FindFirstTag.collect], by simp, by simp⟩
  | r :: refs, events, acc, c0, h => by
      obtain ⟨c, hc⟩ := h r (by simp)
      obtain ⟨infos, c1, heq, h1, h2⟩ :=
        FindFirstTag_collect_ok repo refs (events ++ [IterEvent.Next])
          (acc ++ [⟨r.Name.Short, r.Hash, c.Committer.When⟩]) (some c)
          (fun x hx => h x (by simp [hx]))
      refine ⟨⟨r.Name.Short, r.Hash, c.Committer.When⟩ :: infos, c1, ?_, ?_, ?_⟩
      · simp [FindFirstTag.collect, hc, heq]
      · intro ti hti
        rcases List.mem_cons.1 hti with rfl | hti
        · exact ⟨r, by simp, c, hc, rfl⟩
        · obtain ⟨r2, hr2, c2, hc2, hti2⟩ := h1 ti hti
          exact ⟨r2, by simp [hr2], c2, hc2, hti2⟩
      · intro r2 hr2 c2 hc2
        rcases List.mem_cons.1 hr2 with rfl | hr2
        · rw [hc] at hc2
          cases hc2
          simp
        · exact List.mem_cons_of_mem _ (h2 r2 hr2 c2 hc2)

/-- The first loop of `FindFirstTag` stops at the first step that fails: an error
of `Next` other than `io.EOF`, or a tag whose commit does not resolve. -/
theorem FindFirstTag_collect_fail (repo : Repository) (bad : IterStep Reference)
    (post : List (IterStep Reference)) (e : Error)
    (hbad : (bad = IterStep.fail e ∧ e ≠ Error.EOF) ∨
      (∃ r, bad = IterStep.item r ∧ repo.CommitObject r.Hash = Except.error e)) :
    ∀ (pre : List Reference) (events : List IterEvent) (acc : ByCommitTimeTagInfo)
      (c0 : Option Commit),
      (∀ r ∈ pre, ∃ c, repo.CommitObject r.Hash = Except.ok c) →
      (FindFirstTag.collect repo (pre.map IterStep.item ++ bad :: post) events acc c0).1 =
        Except.error e
  | [], events, acc, c0, _ => by
      rcases hbad with ⟨rfl, he⟩ | ⟨r, rfl, hr⟩
      · simp [FindFirstTag.collect, he]
      · simp [FindFirstTag.collect, hr]
  | r :: pre, events, acc, c0, h => by
      obtain ⟨c, hc⟩ := h r (by simp)
      have heq :=
        FindFirstTag_collect_fail repo bad post e hbad pre (events ++ [IterEvent.Next])
          (acc ++ [⟨r.Name.Short, r.Hash, c.Committer.When⟩]) (some c)
          (fun x hx => h x (by simp [hx]))
      simpa [FindFirstTag.collect, hc] using heq

/-- Whatever the second loop of `FindFirstTag` returns with a nil error is a
commit strictly before the cutoff. -/
theorem FindFirstTag_scan_nil_err (repo : Repository) (when : Time) :
    ∀ (l : List TagInfo) (c0 : Option Commit),
      (FindFirstTag.scan repo when l c0).err = none →
      ∃ c, (FindFirstTag.scan repo when l c0).c = some c ∧
        Before c.Committer.When when = true
  | [], c0, h => by simp [FindFirstTag.scan] at h
  | ti :: l, c0, h => by
      cases hco : repo.CommitObject ti.Hash with
      | error e => simp [FindFirstTag.scan, hco] at h
      | ok c =>
          by_cases hc : Before c.Committer.When when = true
          · exact ⟨c, by simp [FindFirstTag.scan, hco, hc], hc⟩
          · simp only [FindFirstTag.scan, hco, hc] at h ⊢
            exact FindFirstTag_scan_nil_err repo when l _ h

/-- The second loop of `FindFirstTag` returns the first record of the slice whose
commit is strictly before the cutoff. -/
theorem FindFirstTag_scan_found (repo : Repository) (when : Time) (ti : TagInfo)
    (c : Commit) (post : List TagInfo)
    (hti : repo.CommitObject ti.Hash = Except.ok c)
    (hc : Before c.Committer.When when = true) :
    ∀ (pre : List TagInfo) (c0 : Option Commit),
      (∀ x ∈ pre, ∃ cx, repo.CommitObject x.Hash = Except.ok cx ∧
        Before cx.Committer.When when = false) →
      FindFirstTag.scan repo when (pre ++ ti :: post) c0 = ⟨some c, ti.Tag, none⟩
  | [], c0, _ => by simp [FindFirstTag.scan, hti, hc]
  | x :: pre, c0, h => by
      obtain ⟨cx, hx, hbx⟩ := h x (by simp)
      have ih := FindFirstTag_scan_found repo when ti c post hti hc pre (some cx)
        (fun y hy => h y (by simp [hy]))
      simp [FindFirstTag.scan, hx, hbx, ih]

/-- The second loop of `FindFirstTag` on a slice without a record strictly before
the cutoff: `NotFound`, an empty tag name, and the named result `c` as the loop
left it, which is the commit of the last record when there is one. -/
theorem FindFirstTag_scan_exhausted (repo : Repository) (when : Time) :
    ∀ (l : List TagInfo) (c0 : Option Commit),
      (∀ x ∈ l, ∃ cx, repo.CommitObject x.Hash = Except.ok cx ∧
        Before cx.Committer.When when = false) →
      ∃ c1, FindFirstTag.scan repo when l c0 = ⟨c1, "", some Error.NotFound⟩
  | [], c0, _ => ⟨c0, by simp [FindFirstTag.scan]⟩
  | x :: l, c0, h => by
      obtain ⟨cx, hx, hbx⟩ := h x (by simp)
      obtain ⟨c1, ih⟩ := FindFirstTag_scan_exhausted repo when l (some cx)
        (fun y hy => h y (by simp [hy]))
      exact ⟨c1, by simp [FindFirstTag.scan, hx, hbx, ih]⟩

/-- When the enumeration succeeds and every tag resolves, `FindFirstTag` is the
second loop run on the sorted records of the tags. -/
theorem FindFirstTag_resolved (sort : SortAlgorithm) (w : Wayback) (refs : List Reference)
    (hTags : w.Repository.Tags = Except.ok (refs.map IterStep.item))
    (hres : ∀ r ∈ refs, ∃ c, w.Repository.CommitObject r.Hash = Except.ok c) :
    ∃ infos c1,
      (FindFirstTag sort w).result =
        FindFirstTag.scan w.Repository w.When
          (sort.apply (Reverse ByCommitTimeTagInfo.Less) infos) c1 ∧
      (∀ ti ∈ infos, ∃ r ∈ refs, ∃ c, w.Repository.CommitObject r.Hash = Except.ok c ∧
          ti = ⟨r.Name.Short, r.Hash, c.Committer.When⟩) ∧
      (∀ r ∈ refs, ∀ c, w.Repository.CommitObject r.Hash = Except.ok c →
          (⟨r.Name.Short, r.Hash, c.Committer.When⟩ : TagInfo) ∈ infos) := by
  obtain ⟨infos, c1, heq, h1, h2⟩ :=
    FindFirstTag_collect_ok w.Repository refs [] [] none hres
  refine ⟨infos, c1, ?_, h1, h2⟩
  rcases hcol : FindFirstTag.collect w.Repository (refs.map IterStep.item) [] [] none
    with ⟨res, tags⟩
  rw [hcol] at heq
  simp only [List.nil_append] at heq
  subst heq
  simp only [FindFirstTag, hTags, hcol]


/-- When the enumeration succeeds, every tag resolves and some tag's commit is
strictly before the cutoff, `FindFirstTag` returns a tag of the enumeration with
its commit, and no tag's commit that is strictly before the cutoff is newer. -/
theorem FindFirstTag_selects (sort : SortAlgorithm) (w : Wayback) (refs : List Reference)
    (hTags : w.Repository.Tags = Except.ok (refs.map IterStep.item))
    (hres : ∀ r ∈ refs, ∃ c, w.Repository.CommitObject r.Hash = Except.ok c)
    (hex : ∃ r ∈ refs, ∃ c, w.Repository.CommitObject r.Hash = Except.ok c ∧
      Before c.Committer.When w.When = true) :
    ∃ r ∈ refs, ∃ c, w.Repository.CommitObject r.Hash = Except.ok c ∧
      Before c.Committer.When w.When = true ∧
      (FindFirstTag sort w).result = ⟨some c, r.Name.Short, none⟩ ∧
      ∀ r2 ∈ refs, ∀ c2, w.Repository.CommitObject r2.Hash = Except.ok c2 →
        Before c2.Committer.When w.When = true →
        c2.Committer.When ≤ c.Committer.When := by
  obtain ⟨infos, c1, hresult, h1, h2⟩ := FindFirstTag_resolved sort w refs hTags hres
  have hperm := sort.perm (Reverse ByCommitTimeTagInfo.Less) infos
  have hsorted := sort.sorted (Reverse ByCommitTimeTagInfo.Less) infos
    strictWeakOrder_Reverse_Less
  -- every sorted record carries the time of the commit its hash resolves to
  have hrec : ∀ ti ∈ sort.apply (Reverse ByCommitTimeTagInfo.Less) infos,
      ∃ r ∈ refs, ∃ c, w.Repository.CommitObject r.Hash = Except.ok c ∧
        ti = ⟨r.Name.Short, r.Hash, c.Committer.When⟩ :=
    fun ti hti => h1 ti (hperm.mem_iff.1 hti)
  have hfirst : ∃ ti ∈ sort.apply (Reverse ByCommitTimeTagInfo.Less) infos,
      Before ti.When w.When = true := by
    obtain ⟨r, hr, c, hc, hb⟩ := hex
    exact ⟨⟨r.Name.Short, r.Hash, c.Committer.When⟩, hperm.mem_iff.2 (h2 r hr c hc), hb⟩
  obtain ⟨pre, ti, post, hsplit, hpre, hti⟩ :=
    exists_first_match (fun ti => Before ti.When w.When) _ hfirst
  obtain ⟨r, hr, c, hc, htieq⟩ := hrec ti (by rw [hsplit]; simp)
  have htiHash : ti.Hash = r.Hash := by rw [htieq]
  have htiWhen : ti.When = c.Committer.When := by rw [htieq]
  have htiTag : ti.Tag = r.Name.Short := by rw [htieq]
  have hcb : Before c.Committer.When w.When = true := by
    rw [← htiWhen]; exact hti
  refine ⟨r, hr, c, hc, hcb, ?_, ?_⟩
  · rw [hresult, hsplit, ← htiTag]
    apply FindFirstTag_scan_found w.Repository w.When ti c post (by rw [htiHash]; exact hc) hcb
    intro x hx
    obtain ⟨rx, _, cx, hcx, hxeq⟩ := hrec x (by rw [hsplit]; simp [hx])
    refine ⟨cx, by rw [hxeq]; exact hcx, ?_⟩
    have := hpre x hx
    rw [hxeq] at this
    exact this
  · intro r2 hr2 c2 hc2 hb2
    have hmem : (⟨r2.Name.Short, r2.Hash, c2.Committer.When⟩ : TagInfo) ∈
        sort.apply (Reverse ByCommitTimeTagInfo.Less) infos :=
      hperm.mem_iff.2 (h2 r2 hr2 c2 hc2)
    rw [hsplit] at hmem hsorted
    rcases List.mem_append.1 hmem with hm | hm
    · have := hpre _ hm
      simp only at this
      rw [hb2] at this
      exact Bool.noConfusion this
    · rcases List.mem_cons.1 hm with hm | hm
      · rw [← htiWhen, ← hm]
      · have hrel := List.rel_of_pairwise_cons (List.pairwise_append.1 hsorted).2.1 hm
        simp only [Reverse, ByCommitTimeTagInfo.Less] at hrel
        rw [← htiWhen]
        exact (Before_eq_false_iff _ _).1 hrel

/-- C2: for tags in any enumeration order that all resolve, and a cutoff that some
tag's commit is strictly before, `FindFirstTag` returns a nil error, the short name
of a tag of the enumeration and that tag's target commit, which is strictly before
the cutoff and at least as new as every tag's commit strictly before the cutoff;
this holds for every implementation of `sort.Sort`. -/
theorem FindFirstTag_returns_newest_tag_before (sort : SortAlgorithm) (w : Wayback)
    (refs : List Reference)
    (hTags : w.Repository.Tags = Except.ok (refs.map IterStep.item))
    (hres : ∀ r ∈ refs, ∃ c, w.Repository.CommitObject r.Hash = Except.ok c)
    (hex : ∃ r ∈ refs, ∃ c, w.Repository.CommitObject r.Hash = Except.ok c ∧
      Before c.Committer.When w.When = true) :
    ∃ r ∈ refs, ∃ c, w.Repository.CommitObject r.Hash = Except.ok c ∧
      Before c.Committer.When w.When = true ∧
      (FindFirstTag sort w).result = ⟨some c, r.Name.Short, none⟩ ∧
      ∀ r2 ∈ refs, ∀ c2, w.Repository.CommitObject r2.Hash = Except.ok c2 →
        Before c2.Committer.When w.When = true →
        c2.Committer.When ≤ c.Committer.When :=
  FindFirstTag_selects sort w refs hTags hres hex

/-- C2, on the example of the specification: the tags `v1` (2017-09-10), `v2`
(2017-08-15) and `v3` (2017-09-02) with the cutoff 2017-09-04 19:43:36 +0300 give
`v3` and its commit of 2017-09-02. -/
theorem FindFirstTag_returns_newest_tag_before_witness :
    (∃ r ∈ [tagV1, tagV2, tagV3], ∃ c, exampleObjects r.Hash = Except.ok c ∧
      Before c.Committer.When 1504543416 = true ∧
      (FindFirstTag insertionSortAlgorithm
        (NewWayback (exampleRepo [IterStep.item tagV1, IterStep.item tagV2, IterStep.item tagV3])
          true 1504543416 exampleLog)).result = ⟨some c, r.Name.Short, none⟩ ∧
      ∀ r2 ∈ [tagV1, tagV2, tagV3], ∀ c2, exampleObjects r2.Hash = Except.ok c2 →
        Before c2.Committer.When 1504543416 = true →
        c2.Committer.When ≤ c.Committer.When) ∧
    (FindFirstTag insertionSortAlgorithm
        (NewWayback (exampleRepo [IterStep.item tagV1, IterStep.item tagV2, IterStep.item tagV3])
          true 1504543416 exampleLog)).result = ⟨some commitSep02, "v3", none⟩ :=
  ⟨FindFirstTag_returns_newest_tag_before insertionSortAlgorithm
    (NewWayback (exampleRepo [IterStep.item tagV1, IterStep.item tagV2, IterStep.item tagV3])
      true 1504543416 exampleLog)
    [tagV1, tagV2, tagV3] rfl
    (by
      intro r hr
      simp only [List.mem_cons, List.mem_singleton, List.not_mem_nil, or_false] at hr
      rcases hr with rfl | rfl | rfl
      · exact ⟨commitSep10, rfl⟩
      · exact ⟨commitAug15, rfl⟩
      · exact ⟨commitSep02, rfl⟩)
    ⟨tagV3, by simp, commitSep02, rfl, by decide⟩,
   by decide⟩


/-- C3: strictness. A commit that `FindFirst` or `FindFirstTag` returns together with
a nil error has committer time strictly before the cutoff, so never equal to it;
this holds for every iterator, repository and implementation of `sort.Sort`. -/
theorem selected_commit_strictly_before (sort : SortAlgorithm) (w : Wayback)
    (c1 c2 : Commit) :
    ((FindFirst w).result.c = some c1 → (FindFirst w).result.err = none →
      c1.Committer.When < w.When ∧ c1.Committer.When ≠ w.When) ∧
    ((FindFirstTag sort w).result.c = some c2 → (FindFirstTag sort w).result.err = none →
      c2.Committer.When < w.When ∧ c2.Committer.When ≠ w.When) := by
  constructor
  · intro hc herr
    obtain ⟨c, hc', hb⟩ := FindFirst_loop_nil_err w.When _ _ herr
    have hcc : some c1 = some c := hc.symm.trans hc'
    cases hcc
    have hlt := (Before_eq_true_iff _ _).1 hb
    exact ⟨hlt, ne_of_lt hlt⟩
  · intro hc herr
    have key : ∃ c, (FindFirstTag sort w).result.c = some c ∧
        Before c.Committer.When w.When = true := by
      unfold FindFirstTag at herr ⊢
      cases hT : w.Repository.Tags with
      | error e => simp [hT] at herr
      | ok steps =>
          rcases hcol : FindFirstTag.collect w.Repository steps [] [] none with ⟨res, tags⟩
          cases res with
          | error e => simp [hT, hcol] at herr
          | ok p =>
              simp only [hT, hcol] at herr ⊢
              exact FindFirstTag_scan_nil_err _ _ _ _ herr
    obtain ⟨c, hc', hb⟩ := key
    have hcc : some c2 = some c := hc.symm.trans hc'
    cases hcc
    have hlt := (Before_eq_true_iff _ _).1 hb
    exact ⟨hlt, ne_of_lt hlt⟩

/-- C3, on the examples: the commit of 2017-09-01 selected from the log and the
commit of 2017-09-02 selected from the tags are strictly before the cutoff. -/
theorem selected_commit_strictly_before_witness :
    ((FindFirst (NewWayback
        (exampleRepo [IterStep.item tagV1, IterStep.item tagV2, IterStep.item tagV3])
        true 1504543416 exampleLog)).result = ⟨some commitSep01, "", none⟩ ∧
      commitSep01.Committer.When < 1504543416 ∧ commitSep01.Committer.When ≠ 1504543416) ∧
    ((FindFirstTag insertionSortAlgorithm (NewWayback
        (exampleRepo [IterStep.item tagV1, IterStep.item tagV2, IterStep.item tagV3])
        true 1504543416 exampleLog)).result = ⟨some commitSep02, "v3", none⟩ ∧
      commitSep02.Committer.When < 1504543416 ∧ commitSep02.Committer.When ≠ 1504543416) :=
  ⟨⟨by decide,
    (selected_commit_strictly_before insertionSortAlgorithm (NewWayback
        (exampleRepo [IterStep.item tagV1, IterStep.item tagV2, IterStep.item tagV3])
        true 1504543416 exampleLog) commitSep01 commitSep02).1 (by decide) (by decide)⟩,
   ⟨by decide,
    (selected_commit_strictly_before insertionSortAlgorithm (NewWayback
        (exampleRepo [IterStep.item tagV1, IterStep.item tagV2, IterStep.item tagV3])
        true 1504543416 exampleLog) commitSep01 commitSep02).2 (by decide) (by decide)⟩⟩

/-- On an error-free commit sequence without a commit strictly before the cutoff,
`FindFirst` returns no commit, no tag, and the error `io.EOF` that ended the loop. -/
theorem FindFirst_exhausted (w : Wayback) (cs : List Commit)
    (hiter : w.CommitIter.pending = cs.map IterStep.item)
    (hnone : ∀ d ∈ cs, Before d.Committer.When w.When = false) :
    (FindFirst w).result = ⟨none, "", some Error.EOF⟩ := by
  have h := FindFirst_loop_skip w.When [] cs w.CommitIter.events hnone
  simp only [List.append_nil] at h
  simp [FindFirst, hiter, h, FindFirst.loop]

/-- C4: at the empty commit sequence, and at a sequence whose only commit is after
the cutoff, `FindFirst` returns the iterator's end-of-sequence error `io.EOF` as
its error, which is neither nil nor `NotFound`. -/
theorem FindFirst_exhausted_returns_EOF :
    (FindFirst (NewWayback (exampleRepo []) false 1504483200 ⟨[], []⟩)).result =
        ⟨none, "", some Error.EOF⟩ ∧
    (FindFirst (NewWayback (exampleRepo []) false 1504483200
        ⟨[IterStep.item commitSep10], []⟩)).result = ⟨none, "", some Error.EOF⟩ ∧
    some Error.EOF ≠ (none : Option Error) ∧ some Error.EOF ≠ some Error.NotFound := by
  decide

/-- C5: for tags that all resolve, `FindFirstTag` returns the `NotFound` error exactly
when no tag's target commit is strictly before the cutoff. -/
theorem FindFirstTag_NotFound_iff (sort : SortAlgorithm) (w : Wayback)
    (refs : List Reference)
    (hTags : w.Repository.Tags = Except.ok (refs.map IterStep.item))
    (hres : ∀ r ∈ refs, ∃ c, w.Repository.CommitObject r.Hash = Except.ok c) :
    (FindFirstTag sort w).result.err = some Error.NotFound ↔
      ¬ ∃ r ∈ refs, ∃ c, w.Repository.CommitObject r.Hash = Except.ok c ∧
        Before c.Committer.When w.When = true := by
  constructor
  · intro herr hex
    obtain ⟨r, _, c, _, _, hresult, _⟩ := FindFirstTag_selects sort w refs hTags hres hex
    rw [hresult] at herr
    simp at herr
  · intro hno
    obtain ⟨infos, c1, hresult, h1, _⟩ := FindFirstTag_resolved sort w refs hTags hres
    have hperm := sort.perm (Reverse ByCommitTimeTagInfo.Less) infos
    obtain ⟨c2, hscan⟩ := FindFirstTag_scan_exhausted w.Repository w.When
      (sort.apply (Reverse ByCommitTimeTagInfo.Less) infos) c1 (by
        intro x hx
        obtain ⟨r, hr, c, hc, hxeq⟩ := h1 x (hperm.mem_iff.1 hx)
        refine ⟨c, by rw [hxeq]; exact hc, ?_⟩
        by_contra hb
        exact hno ⟨r, hr, c, hc, by simpa using hb⟩)
    rw [hresult, hscan]

/-- C5, on the empty tag set and on a tag set whose only commit is after the
cutoff: both give `NotFound`. -/
theorem FindFirstTag_NotFound_iff_witness :
    (FindFirstTag insertionSortAlgorithm
        (NewWayback (exampleRepo []) true 1504543416 exampleLog)).result.err =
      some Error.NotFound ∧
    (FindFirstTag insertionSortAlgorithm
        (NewWayback (exampleRepo [IterStep.item tagV1]) true 1504543416 exampleLog)).result.err =
      some Error.NotFound :=
  ⟨(FindFirstTag_NotFound_iff insertionSortAlgorithm
      (NewWayback (exampleRepo []) true 1504543416 exampleLog) [] rfl (by simp)).2 (by simp),
   (FindFirstTag_NotFound_iff insertionSortAlgorithm
      (NewWayback (exampleRepo [IterStep.item tagV1]) true 1504543416 exampleLog) [tagV1] rfl
      (by
        intro r hr
        simp only [List.mem_singleton] at hr
        subst hr
        exact ⟨commitSep10, rfl⟩)).2
      (by
        rintro ⟨r, hr, c, hc, hb⟩
        simp only [List.mem_singleton] at hr
        subst hr
        have hc2 : c = commitSep10 := by
          have : (Except.ok commitSep10 : Except Error Commit) = Except.ok c := hc
          cases this
          rfl
        subst hc2
        revert hb
        decide)⟩


/-- C6: with `RequireTagInfo` set, the single tag `v1` at the commit of 2017-09-10
and the cutoff 2017-09-04 19:43:36 +0300, `Find` returns the error `NotFound`
together with a non-nil commit, the commit of 2017-09-10 that the second loop
resolved last; this holds for every implementation of `sort.Sort`. -/
theorem Find_NotFound_with_commit (sort : SortAlgorithm) :
    (Find sort (NewWayback (exampleRepo [IterStep.item tagV1]) true 1504543416
      exampleLog)).result = ⟨some commitSep10, "", some Error.NotFound⟩ := by
  have hfind : (Find sort (NewWayback (exampleRepo [IterStep.item tagV1]) true 1504543416
      exampleLog)).result =
      FindFirstTag.scan (exampleRepo [IterStep.item tagV1]) 1504543416
        (sort.apply (Reverse ByCommitTimeTagInfo.Less) [⟨"v1", ⟨"aa"⟩, 1505001600⟩])
        (some commitSep10) := rfl
  have hs := List.perm_singleton.1
    (sort.perm (Reverse ByCommitTimeTagInfo.Less) [⟨"v1", ⟨"aa"⟩, 1505001600⟩])
  rw [hfind, hs]
  rfl

/-- The call `tags.ForEach` of `Tag` on an error-free enumeration: no error; the
flag is set exactly if it was set before or some tag's hash is the head's; the name
is that of such a tag when there is one, and is left as it was otherwise. -/
theorem Tag_forEach_spec (ref : Reference) :
    ∀ (refs : List Reference) (tag : String) (isTag : Bool),
      (Tag.forEach ref (refs.map IterStep.item) tag isTag).err = none ∧
      ((Tag.forEach ref (refs.map IterStep.item) tag isTag).isTag = true ↔
        (isTag = true ∨ ∃ r ∈ refs, r.Hash = ref.Hash)) ∧
      ((∃ r ∈ refs, r.Hash = ref.Hash) →
        ∃ r ∈ refs, r.Hash = ref.Hash ∧
          (Tag.forEach ref (refs.map IterStep.item) tag isTag).tag = r.Name.Short) ∧
      ((¬ ∃ r ∈ refs, r.Hash = ref.Hash) →
        (Tag.forEach ref (refs.map IterStep.item) tag isTag).tag = tag)
  | [], tag, isTag => by simp [Tag.forEach]
  | r :: refs, tag, isTag => by
      have hstr : r.Hash.String = ref.Hash.String ↔ r.Hash = ref.Hash := by
        cases hr : r.Hash
        cases hh : ref.Hash
        simp [Hash.String]
      by_cases hrh : r.Hash = ref.Hash
      · obtain ⟨h1, h2, h3, h4⟩ := Tag_forEach_spec ref refs r.Name.Short true
        have hS : r.Hash.String = ref.Hash.String := hstr.2 hrh
        simp only [List.map_cons, Tag.forEach, hS, if_true]
        refine ⟨h1, ?_, ?_, ?_⟩
        · rw [h2]
          simp [hrh]
        · intro _
          by_cases hex : ∃ r2 ∈ refs, r2.Hash = ref.Hash
          · obtain ⟨r2, hr2, hh2, ht2⟩ := h3 hex
            exact ⟨r2, by simp [hr2], hh2, ht2⟩
          · exact ⟨r, by simp, hrh, h4 hex⟩
        · intro hno
          exact absurd ⟨r, by simp, hrh⟩ hno
      · obtain ⟨h1, h2, h3, h4⟩ := Tag_forEach_spec ref refs tag isTag
        have hS : ¬ r.Hash.String = ref.Hash.String := fun h => hrh (hstr.1 h)
        simp only [List.map_cons, Tag.forEach, hS, if_false]
        refine ⟨h1, ?_, ?_, ?_⟩
        · rw [h2]
          simp [hrh]
        · rintro ⟨r2, hr2, hh2⟩
          rcases List.mem_cons.1 hr2 with rfl | hr2
          · exact absurd hh2 hrh
          · obtain ⟨r3, hr3, hh3, ht3⟩ := h3 ⟨r2, hr2, hh2⟩
            exact ⟨r3, by simp [hr3], hh3, ht3⟩
        · intro hno
          exact h4 (fun ⟨r2, hr2, hh2⟩ => hno ⟨r2, by simp [hr2], hh2⟩)

/-- When the head lookup and the tag enumeration succeed, `Tag` sets `isTag` exactly
when some tag's target is the head commit, with the short name of such a tag, and
it returns the error `NotFound` in every case. -/
theorem Tag_spec (repo : Repository) (head : Reference) (refs : List Reference)
    (hHead : repo.Head = Except.ok head)
    (hTags : repo.Tags = Except.ok (refs.map IterStep.item)) :
    (Tag repo).err = some Error.NotFound ∧
    ((Tag repo).isTag = true ↔ ∃ r ∈ refs, r.Hash = head.Hash) ∧
    ((∃ r ∈ refs, r.Hash = head.Hash) →
      ∃ r ∈ refs, r.Hash = head.Hash ∧ (Tag repo).tag = r.Name.Short) := by
  obtain ⟨h1, h2, h3, _⟩ := Tag_forEach_spec head refs "" false
  rcases hres : Tag.forEach head (refs.map IterStep.item) "" false with ⟨t, b, e⟩
  rw [hres] at h1 h2
  simp only at h1 h2
  subst h1
  have hTag : Tag repo = ⟨t, b, some Error.NotFound⟩ := by
    simp only [Tag, hHead, hTags, hres]
  rw [hTag]
  refine ⟨rfl, by simpa using h2, ?_⟩
  intro hex
  obtain ⟨r, hr, hh, ht⟩ := h3 hex
  rw [hres] at ht
  exact ⟨r, hr, hh, ht⟩

/-- C7: in a repository whose head is the commit of 2017-09-10 and whose tags are
`v1` (at that commit) and `v3`, `Tag` reports `isTag = true` and the name `v1`, and
returns the error `NotFound` although a tag's target equals the head commit. -/
theorem Tag_match_returns_NotFound :
    Tag (exampleRepo [IterStep.item tagV1, IterStep.item tagV3]) =
      ⟨"v1", true, some Error.NotFound⟩ ∧
    tagV1.Hash = (⟨⟨"master"⟩, ⟨"aa"⟩⟩ : Reference).Hash := by
  decide


/-- C8: if, after tags that resolve, the enumeration of `FindFirstTag` meets a
failure with error `e` (the tag iterator's `Next` fails with an error other than
`io.EOF`, or a tag's target commit does not resolve), then `FindFirstTag` returns a
nil commit, an empty tag name and the error `e`, whatever the tags before and
after the failure are and for every implementation of `sort.Sort`. -/
theorem FindFirstTag_enumeration_failure (sort : SortAlgorithm) (w : Wayback)
    (pre : List Reference) (bad : IterStep Reference) (post : List (IterStep Reference))
    (e : Error)
    (hTags : w.Repository.Tags = Except.ok (pre.map IterStep.item ++ bad :: post))
    (hpre : ∀ r ∈ pre, ∃ c, w.Repository.CommitObject r.Hash = Except.ok c)
    (hbad : (bad = IterStep.fail e ∧ e ≠ Error.EOF) ∨
      (∃ r, bad = IterStep.item r ∧ w.Repository.CommitObject r.Hash = Except.error e)) :
    (FindFirstTag sort w).result = ⟨none, "", some e⟩ := by
  have h := FindFirstTag_collect_fail w.Repository bad post e hbad pre [] [] none hpre
  rcases hcol : FindFirstTag.collect w.Repository (pre.map IterStep.item ++ bad :: post)
    [] [] none with ⟨res, tags⟩
  rw [hcol] at h
  simp only at h
  subst h
  simp only [FindFirstTag, hTags, hcol]

/-- C8, on two enumerations that start with the tag `v3`, whose commit is strictly
before the cutoff: one where `Next` then fails, one where the next tag is
dangling. Both return the failure and no commit. -/
theorem FindFirstTag_enumeration_failure_witness :
    (FindFirstTag insertionSortAlgorithm (NewWayback
        (exampleRepo [IterStep.item tagV3, IterStep.fail (Error.other "read error"),
          IterStep.item tagV2])
        true 1504543416 exampleLog)).result = ⟨none, "", some (Error.other "read error")⟩ ∧
    (FindFirstTag insertionSortAlgorithm (NewWayback
        (exampleRepo [IterStep.item tagV3, IterStep.item tagDangling, IterStep.item tagV2])
        true 1504543416 exampleLog)).result =
      ⟨none, "", some (Error.other "object not found")⟩ :=
  ⟨FindFirstTag_enumeration_failure insertionSortAlgorithm (NewWayback
        (exampleRepo [IterStep.item tagV3, IterStep.fail (Error.other "read error"),
          IterStep.item tagV2])
        true 1504543416 exampleLog)
      [tagV3] (IterStep.fail (Error.other "read error")) [IterStep.item tagV2]
      (Error.other "read error") rfl
      (by
        intro r hr
        simp only [List.mem_singleton] at hr
        subst hr
        exact ⟨commitSep02, rfl⟩)
      (Or.inl ⟨rfl, by decide⟩),
   FindFirstTag_enumeration_failure insertionSortAlgorithm (NewWayback
        (exampleRepo [IterStep.item tagV3, IterStep.item tagDangling, IterStep.item tagV2])
        true 1504543416 exampleLog)
      [tagV3] (IterStep.item tagDangling) [IterStep.item tagV2]
      (Error.other "object not found") rfl
      (by
        intro r hr
        simp only [List.mem_singleton] at hr
        subst hr
        exact ⟨commitSep02, rfl⟩)
      (Or.inr ⟨tagDangling, rfl, rfl⟩)⟩

/-- C9: let the commit iterator yield commits that are not strictly before the
cutoff and then a step `s`. If `s` is an error `e` other than `io.EOF`, `FindFirst`
returns a nil commit and exactly `e`, which differs from what it returns on every
error-free sequence exhausted without a match. If `s` is a commit strictly before
the cutoff, that commit is returned with a nil error, whatever follows it. -/
theorem FindFirst_iteration_error (w : Wayback) (pre : List Commit) (s : IterStep Commit)
    (post : List (IterStep Commit))
    (hiter : w.CommitIter.pending = pre.map IterStep.item ++ s :: post)
    (hpre : ∀ d ∈ pre, Before d.Committer.When w.When = false) :
    (∀ e, s = IterStep.fail e → e ≠ Error.EOF →
      (FindFirst w).result = ⟨none, "", some e⟩ ∧
      ∀ (w2 : Wayback) (cs : List Commit),
        w2.CommitIter.pending = cs.map IterStep.item →
        (∀ d ∈ cs, Before d.Committer.When w2.When = false) →
        (FindFirst w2).result ≠ (FindFirst w).result) ∧
    (∀ c, s = IterStep.item c → Before c.Committer.When w.When = true →
      (FindFirst w).result = ⟨some c, "", none⟩) := by
  have hskip := FindFirst_loop_skip w.When (s :: post) pre w.CommitIter.events hpre
  constructor
  · intro e hs he
    subst hs
    have hres : (FindFirst w).result = ⟨none, "", some e⟩ := by
      simp [FindFirst, hiter, hskip, FindFirst.loop, he]
    refine ⟨hres, ?_⟩
    intro w2 cs h2 hnone
    rw [hres, FindFirst_exhausted w2 cs h2 hnone]
    intro hcontra
    apply he
    have := congrArg Result.err hcontra
    simp only [Option.some.injEq] at this
    exact this.symm
  · intro c hs hc
    subst hs
    simp [FindFirst, hiter, hskip, FindFirst.loop, hc]

/-- C9, on a log that starts with the commit of 2017-09-10 (after the cutoff
2017-09-04): followed by a read error, the error is returned and differs from the
`io.EOF` of the exhausted log; followed by the commit of 2017-09-01 and then a read
error, the commit is returned with a nil error. -/
theorem FindFirst_iteration_error_witness :
    ((FindFirst (NewWayback (exampleRepo []) false 1504483200
        ⟨[IterStep.item commitSep10, IterStep.fail (Error.other "read error"),
          IterStep.item commitSep01], []⟩)).result =
        ⟨none, "", some (Error.other "read error")⟩ ∧
      (FindFirst (NewWayback (exampleRepo []) false 1504483200
        ⟨[IterStep.item commitSep10], []⟩)).result ≠
      (FindFirst (NewWayback (exampleRepo []) false 1504483200
        ⟨[IterStep.item commitSep10, IterStep.fail (Error.other "read error"),
          IterStep.item commitSep01], []⟩)).result) ∧
    (FindFirst (NewWayback (exampleRepo []) false 1504483200
        ⟨[IterStep.item commitSep10, IterStep.item commitSep01,
          IterStep.fail (Error.other "read error")], []⟩)).result =
      ⟨some commitSep01, "", none⟩ :=
  ⟨⟨((FindFirst_iteration_error (NewWayback (exampleRepo []) false 1504483200
        ⟨[IterStep.item commitSep10, IterStep.fail (Error.other "read error"),
          IterStep.item commitSep01], []⟩)
      [commitSep10] (IterStep.fail (Error.other "read error")) [IterStep.item commitSep01]
      rfl (by decide)).1 (Error.other "read error") rfl (by decide)).1,
    ((FindFirst_iteration_error (NewWayback (exampleRepo []) false 1504483200
        ⟨[IterStep.item commitSep10, IterStep.fail (Error.other "read error"),
          IterStep.item commitSep01], []⟩)
      [commitSep10] (IterStep.fail (Error.other "read error")) [IterStep.item commitSep01]
      rfl (by decide)).1 (Error.other "read error") rfl (by decide)).2
      (NewWayback (exampleRepo []) false 1504483200 ⟨[IterStep.item commitSep10], []⟩)
      [commitSep10] rfl (by decide)⟩,
   (FindFirst_iteration_error (NewWayback (exampleRepo []) false 1504483200
        ⟨[IterStep.item commitSep10, IterStep.item commitSep01,
          IterStep.fail (Error.other "read error")], []⟩)
      [commitSep10] (IterStep.item commitSep01) [IterStep.fail (Error.other "read error")]
      rfl (by decide)).2 commitSep01 rfl (by decide)⟩

/-- The loop of `FindFirst` only calls `Next` on the commit iterator. -/
theorem FindFirst_loop_events (when : Time) :
    ∀ (steps : List (IterStep Commit)) (events : List IterEvent),
      ∃ n, (FindFirst.loop when steps events).2.events =
        events ++ List.replicate n IterEvent.Next
  | [], events => ⟨1, by simp [FindFirst.loop]⟩
  | IterStep.fail e :: rest, events => by
      by_cases he : e = Error.EOF
      · exact ⟨1, by simp [FindFirst.loop, he]⟩
      · exact ⟨1, by simp [FindFirst.loop, he]⟩
  | IterStep.item c :: rest, events => by
      by_cases hc : Before c.Committer.When when = true
      · exact ⟨1, by simp [FindFirst.loop, hc]⟩
      · obtain ⟨n, hn⟩ := FindFirst_loop_events when rest (events ++ [IterEvent.Next])
        exact ⟨n + 1, by simp [FindFirst.loop, hc, hn, List.replicate_succ]⟩

/-- The method `FindFirstTag` makes no call on the commit iterator. -/
theorem FindFirstTag_commitIter (sort : SortAlgorithm) (w : Wayback) :
    (FindFirstTag sort w).commitIter = w.CommitIter := by
  unfold FindFirstTag
  cases hT : w.Repository.Tags with
  | error e => rfl
  | ok steps =>
      rcases hcol : FindFirstTag.collect w.Repository steps [] [] none with ⟨res, tags⟩
      cases res with
      | error e => simp only [hcol]
      | ok p => simp only [hcol]

/-- C10: under either policy and whatever the selection returns, the calls that
`Find` makes on the commit iterator are some calls of `Next` followed by one call
of `Close`: `Close` is invoked exactly once per call of `Find`, after the
selection has finished reading. -/
theorem Find_closes_commit_iterator_once (sort : SortAlgorithm) (w : Wayback) :
    (∃ n, (Find sort w).commitIter.events =
      w.CommitIter.events ++ List.replicate n IterEvent.Next ++ [IterEvent.Close]) ∧
    (List.drop w.CommitIter.events.length (Find sort w).commitIter.events).count
      IterEvent.Close = 1 := by
  have key : ∃ n, (Find sort w).commitIter.events =
      w.CommitIter.events ++ List.replicate n IterEvent.Next ++ [IterEvent.Close] := by
    unfold Find
    by_cases hreq : w.RequireTagInfo = true
    · refine ⟨0, ?_⟩
      simp [hreq, FindFirstTag_commitIter, Iter.Close]
    · obtain ⟨n, hn⟩ := FindFirst_loop_events w.When w.CommitIter.pending w.CommitIter.events
      refine ⟨n, ?_⟩
      simp [hreq, FindFirst, Iter.Close, hn]
  refine ⟨key, ?_⟩
  obtain ⟨n, hn⟩ := key
  rw [hn, List.append_assoc, List.drop_left]
  simp [List.count_append, List.count_replicate]


/-- C11: `Find` is a pure dispatch. With `RequireTagInfo` set its results are those
of `FindFirstTag` and are the same for every commit iterator; with `RequireTagInfo`
unset its results are those of `FindFirst` and are the same for every repository
(so for every tag set) and every implementation of `sort.Sort`. -/
theorem Find_pure_dispatch (sort : SortAlgorithm) (w : Wayback) :
    (w.RequireTagInfo = true →
      (Find sort w).result = (FindFirstTag sort w).result ∧
      ∀ it : CommitIter,
        (Find sort ⟨w.Debug, w.Repository, w.RequireTagInfo, w.When, it⟩).result =
          (Find sort w).result) ∧
    (w.RequireTagInfo = false →
      (Find sort w).result = (FindFirst w).result ∧
      ∀ (sort2 : SortAlgorithm) (repo : Repository),
        (Find sort2 ⟨w.Debug, repo, w.RequireTagInfo, w.When, w.CommitIter⟩).result =
          (Find sort w).result) := by
  constructor
  · intro h
    refine ⟨by simp [Find, h], ?_⟩
    intro it
    simp only [Find, h, if_true]
    unfold FindFirstTag
    cases hT : w.Repository.Tags with
    | error e => rfl
    | ok steps =>
        rcases hcol : FindFirstTag.collect w.Repository steps [] [] none with ⟨res, tags⟩
        cases res with
        | error e => simp only [hcol]
        | ok p => simp only [hcol]
  · intro h
    refine ⟨by simp [Find, h], ?_⟩
    intro sort2 repo
    simp [Find, h, FindFirst]

/-- C11, on the examples: with the tag policy the exhausted and the full commit log
give the same results as `FindFirstTag`; with the commit policy a repository
without tags and one with three tags give the same results as `FindFirst`. -/
theorem Find_pure_dispatch_witness :
    ((Find insertionSortAlgorithm (NewWayback
        (exampleRepo [IterStep.item tagV1, IterStep.item tagV2, IterStep.item tagV3])
        true 1504543416 exampleLog)).result =
      (FindFirstTag insertionSortAlgorithm (NewWayback
        (exampleRepo [IterStep.item tagV1, IterStep.item tagV2, IterStep.item tagV3])
        true 1504543416 exampleLog)).result ∧
     (Find insertionSortAlgorithm (NewWayback
        (exampleRepo [IterStep.item tagV1, IterStep.item tagV2, IterStep.item tagV3])
        true 1504543416 ⟨[], []⟩)).result =
      (Find insertionSortAlgorithm (NewWayback
        (exampleRepo [IterStep.item tagV1, IterStep.item tagV2, IterStep.item tagV3])
        true 1504543416 exampleLog)).result) ∧
    ((Find insertionSortAlgorithm
        (NewWayback (exampleRepo []) false 1504543416 exampleLog)).result =
      (FindFirst (NewWayback (exampleRepo []) false 1504543416 exampleLog)).result ∧
     (Find shellSortAlgorithm (NewWayback
        (exampleRepo [IterStep.item tagV1, IterStep.item tagV2, IterStep.item tagV3])
        false 1504543416 exampleLog)).result =
      (Find insertionSortAlgorithm
        (NewWayback (exampleRepo []) false 1504543416 exampleLog)).result) :=
  ⟨⟨((Find_pure_dispatch insertionSortAlgorithm (NewWayback
        (exampleRepo [IterStep.item tagV1, IterStep.item tagV2, IterStep.item tagV3])
        true 1504543416 exampleLog)).1 rfl).1,
    ((Find_pure_dispatch insertionSortAlgorithm (NewWayback
        (exampleRepo [IterStep.item tagV1, IterStep.item tagV2, IterStep.item tagV3])
        true 1504543416 exampleLog)).1 rfl).2 ⟨[], []⟩⟩,
   ⟨((Find_pure_dispatch insertionSortAlgorithm
        (NewWayback (exampleRepo []) false 1504543416 exampleLog)).2 rfl).1,
    ((Find_pure_dispatch insertionSortAlgorithm
        (NewWayback (exampleRepo []) false 1504543416 exampleLog)).2 rfl).2
      shellSortAlgorithm
      (exampleRepo [IterStep.item tagV1, IterStep.item tagV2, IterStep.item tagV3])⟩⟩

/-- Sorting by the comparator of line 138 (`sort.Reverse` of `ByCommitTimeTagInfo`,
whose `Less` is `When.Before`): every implementation of `sort.Sort` yields a
permutation of the slice in which the commit times are non-increasing. -/
theorem sort_step_descending (sort : SortAlgorithm) (xs : ByCommitTimeTagInfo) :
    (sort.apply (Reverse ByCommitTimeTagInfo.Less) xs).Perm xs ∧
    (sort.apply (Reverse ByCommitTimeTagInfo.Less) xs).Pairwise
      (fun a b => b.When ≤ a.When) := by
  refine ⟨sort.perm _ xs, ?_⟩
  have h := sort.sorted (Reverse ByCommitTimeTagInfo.Less) xs strictWeakOrder_Reverse_Less
  refine h.imp ?_
  intro a b hab
  simp only [Reverse, ByCommitTimeTagInfo.Less] at hab
  exact (Before_eq_false_iff _ _).1 hab

/-- The first loop of `FindFirstTag` on an enumeration in which every tag
resolves: the slice it collects holds, in enumeration order, one record for each
tag, with the tag's short name, its hash and the committer time of its commit. -/
theorem FindFirstTag_collect_records (repo : Repository) :
    ∀ (refs : List Reference) (events : List IterEvent) (acc : ByCommitTimeTagInfo)
      (c0 : Option Commit),
      (∀ r ∈ refs, ∃ c, repo.CommitObject r.Hash = Except.ok c) →
      ∃ infos c1,
        (FindFirstTag.collect repo (refs.map IterStep.item) events acc c0).1 =
          Except.ok (acc ++ infos, c1) ∧
        List.Forall₂ (fun r ti => ∃ c, repo.CommitObject r.Hash = Except.ok c ∧
          ti = ⟨r.Name.Short, r.Hash, c.Committer.When⟩) refs infos
  | [], events, acc, c0, _ => ⟨[], c0, by simp [FindFirstTag.collect], List.Forall₂.nil⟩
  | r :: refs, events, acc, c0, h => by
      obtain ⟨c, hc⟩ := h r (by simp)
      obtain ⟨infos, c1, heq, hrel⟩ :=
        FindFirstTag_collect_records repo refs (events ++ [IterEvent.Next])
          (acc ++ [⟨r.Name.Short, r.Hash, c.Committer.When⟩]) (some c)
          (fun x hx => h x (by simp [hx]))
      refine ⟨⟨r.Name.Short, r.Hash, c.Committer.When⟩ :: infos, c1, ?_,
        List.Forall₂.cons ⟨c, hc, rfl⟩ hrel⟩
      simp [FindFirstTag.collect, hc, heq]

/-- C12: for every enumeration of tags, in any order, in which every tag resolves,
`FindFirstTag` collects one record for each tag in enumeration order, and what it
returns is the result of its second loop (lines 145-160) run over the slice that
its sort step (line 138: `sort.Sort` over `sort.Reverse` of `ByCommitTimeTagInfo`,
whose `Less` is `When.Before`) makes of the collected records: a permutation of them
in which the commit times are non-increasing from first to last. This holds for
every implementation of `sort.Sort`. -/
theorem FindFirstTag_sorts_descending (sort : SortAlgorithm) (w : Wayback)
    (refs : List Reference)
    (hTags : w.Repository.Tags = Except.ok (refs.map IterStep.item))
    (hres : ∀ r ∈ refs, ∃ c, w.Repository.CommitObject r.Hash = Except.ok c) :
    ∃ (infos sorted : ByCommitTimeTagInfo) (c1 : Option Commit),
      List.Forall₂ (fun r ti => ∃ c, w.Repository.CommitObject r.Hash = Except.ok c ∧
        ti = ⟨r.Name.Short, r.Hash, c.Committer.When⟩) refs infos ∧
      sorted = sort.apply (Reverse ByCommitTimeTagInfo.Less) infos ∧
      (FindFirstTag sort w).result =
        FindFirstTag.scan w.Repository w.When sorted c1 ∧
      sorted.Perm infos ∧
      sorted.Pairwise (fun a b => b.When ≤ a.When) := by
  obtain ⟨infos, c1, heq, hrel⟩ :=
    FindFirstTag_collect_records w.Repository refs [] [] none hres
  refine ⟨infos, sort.apply (Reverse ByCommitTimeTagInfo.Less) infos, c1, hrel, rfl, ?_,
    (sort_step_descending sort infos).1, (sort_step_descending sort infos).2⟩
  rcases hcol : FindFirstTag.collect w.Repository (refs.map IterStep.item) [] [] none
    with ⟨res, tags⟩
  rw [hcol] at heq
  simp only [List.nil_append] at heq
  subst heq
  simp only [FindFirstTag, hTags, hcol]

/-- C12, on the example of the specification: the tags `v1` (2017-09-10), `v2`
(2017-08-15) and `v3` (2017-09-02), enumerated in this order, are sorted into
`v1`, `v3`, `v2`, and with the cutoff 2017-09-04 19:43:36 +0300 `FindFirstTag` returns
`v3`; the second loop run over the records as collected, unsorted, would return
`v2`. -/
theorem FindFirstTag_sorts_descending_witness :
    (∃ (infos sorted : ByCommitTimeTagInfo) (c1 : Option Commit),
      List.Forall₂ (fun r ti => ∃ c, exampleObjects r.Hash = Except.ok c ∧
        ti = ⟨r.Name.Short, r.Hash, c.Committer.When⟩) [tagV1, tagV2, tagV3] infos ∧
      sorted = insertionSortAlgorithm.apply (Reverse ByCommitTimeTagInfo.Less) infos ∧
      (FindFirstTag insertionSortAlgorithm (NewWayback
        (exampleRepo [IterStep.item tagV1, IterStep.item tagV2, IterStep.item tagV3])
        true 1504543416 exampleLog)).result =
        FindFirstTag.scan (exampleRepo
          [IterStep.item tagV1, IterStep.item tagV2, IterStep.item tagV3])
          1504543416 sorted c1 ∧
      sorted.Perm infos ∧
      sorted.Pairwise (fun a b => b.When ≤ a.When)) ∧
    (insertionSortAlgorithm.apply (Reverse ByCommitTimeTagInfo.Less)
      [⟨"v1", ⟨"aa"⟩, 1505001600⟩, ⟨"v2", ⟨"ee"⟩, 1502755200⟩,
       ⟨"v3", ⟨"bb"⟩, 1504310400⟩]).map (fun ti => ti.Tag) = ["v1", "v3", "v2"] ∧
    (FindFirstTag insertionSortAlgorithm (NewWayback
        (exampleRepo [IterStep.item tagV1, IterStep.item tagV2, IterStep.item tagV3])
        true 1504543416 exampleLog)).result = ⟨some commitSep02, "v3", none⟩ ∧
    FindFirstTag.scan (exampleRepo
        [IterStep.item tagV1, IterStep.item tagV2, IterStep.item tagV3]) 1504543416
      [⟨"v1", ⟨"aa"⟩, 1505001600⟩, ⟨"v2", ⟨"ee"⟩, 1502755200⟩,
       ⟨"v3", ⟨"bb"⟩, 1504310400⟩] none = ⟨some commitAug15, "v2", none⟩ :=
  ⟨FindFirstTag_sorts_descending insertionSortAlgorithm
      (NewWayback
        (exampleRepo [IterStep.item tagV1, IterStep.item tagV2, IterStep.item tagV3])
        true 1504543416 exampleLog)
      [tagV1, tagV2, tagV3] rfl
      (by
        intro r hr
        simp only [List.mem_cons, List.mem_singleton, List.not_mem_nil, or_false] at hr
        rcases hr with rfl | rfl | rfl
        · exact ⟨commitSep10, rfl⟩
        · exact ⟨commitAug15, rfl⟩
        · exact ⟨commitSep02, rfl⟩),
   by decide, by decide, by decide⟩

/-- On an error-free commit sequence with a commit strictly before the cutoff,
`FindFirst` returns the first such commit in iteration order, with a nil error. -/
theorem FindFirst_first_match (w : Wayback) (cs : List Commit)
    (hiter : w.CommitIter.pending = cs.map IterStep.item)
    (hex : ∃ c ∈ cs, Before c.Committer.When w.When = true) :
    ∃ pre c post, cs = pre ++ c :: post ∧
      (∀ d ∈ pre, Before d.Committer.When w.When = false) ∧
      Before c.Committer.When w.When = true ∧
      (FindFirst w).result = ⟨some c, "", none⟩ := by
  obtain ⟨pre, c, post, hsplit, hpre, hc⟩ :=
    exists_first_match (fun c => Before c.Committer.When w.When) cs hex
  refine ⟨pre, c, post, hsplit, hpre, hc, ?_⟩
  have hp : w.CommitIter.pending =
      pre.map IterStep.item ++ IterStep.item c :: post.map IterStep.item := by
    rw [hiter, hsplit]; simp
  have hc2 : Before c.Committer.When w.When = true := hc
  simp only [FindFirst, hp]
  rw [FindFirst_loop_skip w.When _ pre _ hpre]
  simp [FindFirst.loop, hc2]

/-- In a sequence in non-increasing committer-time order, the first commit
strictly before the cutoff is at least as new as every commit strictly before
the cutoff. -/
theorem first_match_newest (when : Time) (pre post : List Commit) (c : Commit)
    (hsorted : (pre ++ c :: post).Pairwise
      (fun a b => b.Committer.When ≤ a.Committer.When))
    (hpre : ∀ d ∈ pre, Before d.Committer.When when = false) :
    ∀ d ∈ pre ++ c :: post, Before d.Committer.When when = true →
      d.Committer.When ≤ c.Committer.When := by
  intro d hd hdb
  rcases List.mem_append.1 hd with hd | hd
  · rw [hpre d hd] at hdb
    exact Bool.noConfusion hdb
  · rcases List.mem_cons.1 hd with rfl | hd
    · exact le_refl _
    · exact List.rel_of_pairwise_cons (List.pairwise_append.1 hsorted).2.1 hd

/-- C13: `FindFirst` does not re-sort. On every error-free commit sequence, in any
order, a commit it returns is the earliest element in iteration order that is
strictly before the cutoff, and it returns that element whenever there is one; on
the sequence 2017-09-10, 2017-08-20, 2017-09-01, which is not newest-first, with
the cutoff 2017-09-04 it returns the commit of 2017-08-20 although the commit of
2017-09-01 is strictly before the cutoff and newer. -/
theorem FindFirst_does_not_resort (w : Wayback) (cs : List Commit)
    (hiter : w.CommitIter.pending = cs.map IterStep.item) :
    (∀ c, (FindFirst w).result.c = some c →
      ∃ pre post, cs = pre ++ c :: post ∧
        (∀ d ∈ pre, Before d.Committer.When w.When = false) ∧
        Before c.Committer.When w.When = true) ∧
    ((∃ c ∈ cs, Before c.Committer.When w.When = true) →
      ∃ pre c post, cs = pre ++ c :: post ∧
        (∀ d ∈ pre, Before d.Committer.When w.When = false) ∧
        Before c.Committer.When w.When = true ∧
        (FindFirst w).result = ⟨some c, "", none⟩) ∧
    (∃ (w2 : Wayback) (cs2 : List Commit) (c d : Commit),
      w2.CommitIter.pending = cs2.map IterStep.item ∧
      ¬ cs2.Pairwise (fun a b => b.Committer.When ≤ a.Committer.When) ∧
      (FindFirst w2).result = ⟨some c, "", none⟩ ∧
      d ∈ cs2 ∧ Before d.Committer.When w2.When = true ∧
      c.Committer.When < d.Committer.When) := by
  refine ⟨?_, fun hex => FindFirst_first_match w cs hiter hex, ?_⟩
  · intro c hc
    by_cases hex : ∃ c ∈ cs, Before c.Committer.When w.When = true
    · obtain ⟨pre, c2, post, hsplit, hpre, hc2, hres⟩ := FindFirst_first_match w cs hiter hex
      rw [hres] at hc
      simp only [Option.some.injEq] at hc
      subst hc
      exact ⟨pre, post, hsplit, hpre, hc2⟩
    · have hnone : ∀ d ∈ cs, Before d.Committer.When w.When = false := by
        intro d hd
        by_contra hb
        exact hex ⟨d, hd, by simpa using hb⟩
      rw [FindFirst_exhausted w cs hiter hnone] at hc
      simp at hc
  · exact ⟨NewWayback (exampleRepo []) false 1504483200 unsortedLog,
      [commitSep10, commitAug20, commitSep01], commitAug20, commitSep01,
      rfl, by decide, by decide, by decide, by decide, by decide⟩

/-- C13, on the log 2017-09-10, 2017-08-20, 2017-09-01 with the cutoff 2017-09-04:
the commit of 2017-08-20 is returned, the first in iteration order that is strictly
before the cutoff. -/
theorem FindFirst_does_not_resort_witness :
    (FindFirst (NewWayback (exampleRepo []) false 1504483200 unsortedLog)).result =
      ⟨some commitAug20, "", none⟩ ∧
    ∃ pre post, [commitSep10, commitAug20, commitSep01] = pre ++ commitAug20 :: post ∧
      (∀ d ∈ pre, Before d.Committer.When 1504483200 = false) ∧
      Before commitAug20.Committer.When 1504483200 = true :=
  ⟨by decide,
   (FindFirst_does_not_resort (NewWayback (exampleRepo []) false 1504483200 unsortedLog)
      [commitSep10, commitAug20, commitSep01] rfl).1 commitAug20 (by decide)⟩


/-- When the enumeration succeeds, every tag resolves and no tag's commit is
strictly before the cutoff, `FindFirstTag` returns `NotFound` and an empty name. -/
theorem FindFirstTag_no_match (sort : SortAlgorithm) (w : Wayback) (refs : List Reference)
    (hTags : w.Repository.Tags = Except.ok (refs.map IterStep.item))
    (hres : ∀ r ∈ refs, ∃ c, w.Repository.CommitObject r.Hash = Except.ok c)
    (hno : ¬ ∃ r ∈ refs, ∃ c, w.Repository.CommitObject r.Hash = Except.ok c ∧
      Before c.Committer.When w.When = true) :
    ∃ c1, (FindFirstTag sort w).result = ⟨c1, "", some Error.NotFound⟩ := by
  obtain ⟨infos, c1, hresult, h1, _⟩ := FindFirstTag_resolved sort w refs hTags hres
  have hperm := sort.perm (Reverse ByCommitTimeTagInfo.Less) infos
  obtain ⟨c2, hscan⟩ := FindFirstTag_scan_exhausted w.Repository w.When
    (sort.apply (Reverse ByCommitTimeTagInfo.Less) infos) c1 (by
      intro x hx
      obtain ⟨r, hr, c, hc, hxeq⟩ := h1 x (hperm.mem_iff.1 hx)
      refine ⟨c, by rw [hxeq]; exact hc, ?_⟩
      by_contra hb
      exact hno ⟨r, hr, c, hc, by simpa using hb⟩)
  exact ⟨c2, by rw [hresult, hscan]⟩

/-- Two runs of `FindFirstTag` over the same tags and objects with the same cutoff,
whatever the two enumeration orders and the two implementations of `sort.Sort`:
both return `NotFound`, or both return a tag of the enumeration with its commit,
and the two commits have the same committer time, the greatest among the tags'
commits strictly before the cutoff. -/
theorem FindFirstTag_same_time (sort1 sort2 : SortAlgorithm) (w1 w2 : Wayback)
    (refs1 refs2 : List Reference)
    (hTags1 : w1.Repository.Tags = Except.ok (refs1.map IterStep.item))
    (hTags2 : w2.Repository.Tags = Except.ok (refs2.map IterStep.item))
    (hObj : w2.Repository.CommitObject = w1.Repository.CommitObject)
    (hWhen : w2.When = w1.When)
    (hmem : ∀ r, r ∈ refs1 ↔ r ∈ refs2)
    (hres : ∀ r ∈ refs1, ∃ c, w1.Repository.CommitObject r.Hash = Except.ok c) :
    ((FindFirstTag sort1 w1).result.err = some Error.NotFound ∧
      (FindFirstTag sort2 w2).result.err = some Error.NotFound) ∨
    (∃ r1 ∈ refs1, ∃ r2 ∈ refs2, ∃ c1 c2,
      w1.Repository.CommitObject r1.Hash = Except.ok c1 ∧
      w1.Repository.CommitObject r2.Hash = Except.ok c2 ∧
      (FindFirstTag sort1 w1).result = ⟨some c1, r1.Name.Short, none⟩ ∧
      (FindFirstTag sort2 w2).result = ⟨some c2, r2.Name.Short, none⟩ ∧
      c1.Committer.When = c2.Committer.When ∧
      Before c1.Committer.When w1.When = true ∧
      ∀ r ∈ refs1, ∀ c, w1.Repository.CommitObject r.Hash = Except.ok c →
        Before c.Committer.When w1.When = true →
        c.Committer.When ≤ c1.Committer.When) := by
  have hres2 : ∀ r ∈ refs2, ∃ c, w2.Repository.CommitObject r.Hash = Except.ok c := by
    intro r hr
    rw [hObj]
    exact hres r ((hmem r).2 hr)
  by_cases hex : ∃ r ∈ refs1, ∃ c, w1.Repository.CommitObject r.Hash = Except.ok c ∧
      Before c.Committer.When w1.When = true
  · right
    have hex2 : ∃ r ∈ refs2, ∃ c, w2.Repository.CommitObject r.Hash = Except.ok c ∧
        Before c.Committer.When w2.When = true := by
      obtain ⟨r, hr, c, hc, hb⟩ := hex
      exact ⟨r, (hmem r).1 hr, c, by rw [hObj]; exact hc, by rw [hWhen]; exact hb⟩
    obtain ⟨r1, hr1, c1, hc1, hb1, hresult1, hmax1⟩ :=
      FindFirstTag_selects sort1 w1 refs1 hTags1 hres hex
    obtain ⟨r2, hr2, c2, hc2, hb2, hresult2, hmax2⟩ :=
      FindFirstTag_selects sort2 w2 refs2 hTags2 hres2 hex2
    rw [hObj] at hc2 hmax2
    rw [hWhen] at hb2 hmax2
    refine ⟨r1, hr1, r2, hr2, c1, c2, hc1, hc2, hresult1, hresult2, ?_, hb1, hmax1⟩
    exact le_antisymm (hmax2 r1 ((hmem r1).1 hr1) c1 hc1 hb1)
      (hmax1 r2 ((hmem r2).2 hr2) c2 hc2 hb2)
  · left
    have hno2 : ¬ ∃ r ∈ refs2, ∃ c, w2.Repository.CommitObject r.Hash = Except.ok c ∧
        Before c.Committer.When w2.When = true := by
      rintro ⟨r, hr, c, hc, hb⟩
      exact hex ⟨r, (hmem r).2 hr, c, by rw [← hObj]; exact hc, by rw [← hWhen]; exact hb⟩
    obtain ⟨d1, h1⟩ := FindFirstTag_no_match sort1 w1 refs1 hTags1 hres hex
    obtain ⟨d2, h2⟩ := FindFirstTag_no_match sort2 w2 refs2 hTags2 hres2 hno2
    exact ⟨by rw [h1], by rw [h2]⟩

/-- C14, as stated, fails: with the seven tags `r1` to `r7` enumerated in this order,
`r1` and `r2` both at the commit of 2017-09-01 (the newest before the cutoff
2017-09-04), the shell pass of `sort.Sort` exchanges `r1` with `r7`, the sorted order
is `r7, r2, r1, r3, r4, r5, r6`, and `FindFirstTag` returns `r2`, not `r1`, the first
of the two in enumeration order, which a stable implementation returns. -/
theorem FindFirstTag_tie_not_first_enumerated :
    tiedTags.map (fun r => r.Name.Short) = ["r1", "r2", "r3", "r4", "r5", "r6", "r7"] ∧
    exampleObjects (⟨"cc"⟩ : Hash) = Except.ok commitSep01 ∧
    (tiedTags.filter (fun r => r.Hash = (⟨"cc"⟩ : Hash))).map (fun r => r.Name.Short) =
      ["r1", "r2"] ∧
    (shellSortAlgorithm.apply (Reverse ByCommitTimeTagInfo.Less)
      [⟨"r1", ⟨"cc"⟩, 1504224000⟩, ⟨"r2", ⟨"cc"⟩, 1504224000⟩, ⟨"r3", ⟨"dd"⟩, 1503187200⟩,
       ⟨"r4", ⟨"dd"⟩, 1503187200⟩, ⟨"r5", ⟨"ee"⟩, 1502755200⟩, ⟨"r6", ⟨"ee"⟩, 1502755200⟩,
       ⟨"r7", ⟨"aa"⟩, 1505001600⟩]).map (fun ti => ti.Tag) =
      ["r7", "r2", "r1", "r3", "r4", "r5", "r6"] ∧
    (FindFirstTag shellSortAlgorithm (NewWayback (exampleRepo (tiedTags.map IterStep.item))
      true 1504483200 exampleLog)).result = ⟨some commitSep01, "r2", none⟩ ∧
    (FindFirstTag insertionSortAlgorithm (NewWayback (exampleRepo (tiedTags.map IterStep.item))
      true 1504483200 exampleLog)).result = ⟨some commitSep01, "r1", none⟩ :=
  ⟨by decide, rfl, by decide, by decide, by decide, by decide⟩

/-- C14, amended: `sort.Sort` is not guaranteed to be stable, so when several tags
share the greatest commit time strictly before the cutoff the name returned is
that of one of them, which one being left to the implementation of `sort.Sort`;
for any two implementations the two returned commits are target commits of tags
of the enumeration and have the same committer time, the greatest strictly before
the cutoff. -/
theorem FindFirstTag_tie_any_implementation (sort1 sort2 : SortAlgorithm) (w : Wayback)
    (refs : List Reference)
    (hTags : w.Repository.Tags = Except.ok (refs.map IterStep.item))
    (hres : ∀ r ∈ refs, ∃ c, w.Repository.CommitObject r.Hash = Except.ok c)
    (hex : ∃ r ∈ refs, ∃ c, w.Repository.CommitObject r.Hash = Except.ok c ∧
      Before c.Committer.When w.When = true) :
    ∃ r1 ∈ refs, ∃ r2 ∈ refs, ∃ c1 c2,
      w.Repository.CommitObject r1.Hash = Except.ok c1 ∧
      w.Repository.CommitObject r2.Hash = Except.ok c2 ∧
      (FindFirstTag sort1 w).result = ⟨some c1, r1.Name.Short, none⟩ ∧
      (FindFirstTag sort2 w).result = ⟨some c2, r2.Name.Short, none⟩ ∧
      c1.Committer.When = c2.Committer.When ∧
      Before c1.Committer.When w.When = true ∧
      ∀ r ∈ refs, ∀ c, w.Repository.CommitObject r.Hash = Except.ok c →
        Before c.Committer.When w.When = true →
        c.Committer.When ≤ c1.Committer.When := by
  rcases FindFirstTag_same_time sort1 sort2 w w refs refs hTags hTags rfl rfl
    (fun _ => Iff.rfl) hres with h | h
  · obtain ⟨r, _, c, _, _, hresult, _⟩ := FindFirstTag_selects sort1 w refs hTags hres hex
    rw [hresult] at h
    simp at h
  · exact h


/-- Every tag of `tiedTags` resolves in the example object store. -/
theorem tiedTags_resolve :
    ∀ r ∈ tiedTags, ∃ c, exampleObjects r.Hash = Except.ok c := by
  intro r hr
  simp only [tiedTags, List.mem_cons, List.mem_singleton, List.not_mem_nil, or_false] at hr
  rcases hr with rfl | rfl | rfl | rfl | rfl | rfl | rfl
  · exact ⟨commitSep01, rfl⟩
  · exact ⟨commitSep01, rfl⟩
  · exact ⟨commitAug20, rfl⟩
  · exact ⟨commitAug20, rfl⟩
  · exact ⟨commitAug15, rfl⟩
  · exact ⟨commitAug15, rfl⟩
  · exact ⟨commitSep10, rfl⟩

/-- C14, amended, on the seven tags `r1` to `r7` with the cutoff 2017-09-04: insertion
sort returns `r1`, the shell pass followed by insertion sort returns `r2`, and both
return the commit of 2017-09-01. -/
theorem FindFirstTag_tie_any_implementation_witness :
    (∃ r1 ∈ tiedTags, ∃ r2 ∈ tiedTags, ∃ c1 c2,
      exampleObjects r1.Hash = Except.ok c1 ∧
      exampleObjects r2.Hash = Except.ok c2 ∧
      (FindFirstTag insertionSortAlgorithm (NewWayback
        (exampleRepo (tiedTags.map IterStep.item)) true 1504483200 exampleLog)).result =
        ⟨some c1, r1.Name.Short, none⟩ ∧
      (FindFirstTag shellSortAlgorithm (NewWayback
        (exampleRepo (tiedTags.map IterStep.item)) true 1504483200 exampleLog)).result =
        ⟨some c2, r2.Name.Short, none⟩ ∧
      c1.Committer.When = c2.Committer.When ∧
      Before c1.Committer.When 1504483200 = true ∧
      ∀ r ∈ tiedTags, ∀ c, exampleObjects r.Hash = Except.ok c →
        Before c.Committer.When 1504483200 = true →
        c.Committer.When ≤ c1.Committer.When) ∧
    (FindFirstTag insertionSortAlgorithm (NewWayback
        (exampleRepo (tiedTags.map IterStep.item)) true 1504483200 exampleLog)).result =
      ⟨some commitSep01, "r1", none⟩ ∧
    (FindFirstTag shellSortAlgorithm (NewWayback
        (exampleRepo (tiedTags.map IterStep.item)) true 1504483200 exampleLog)).result =
      ⟨some commitSep01, "r2", none⟩ :=
  ⟨FindFirstTag_tie_any_implementation insertionSortAlgorithm shellSortAlgorithm
      (NewWayback (exampleRepo (tiedTags.map IterStep.item)) true 1504483200 exampleLog)
      tiedTags rfl tiedTags_resolve
      ⟨⟨⟨"r1"⟩, ⟨"cc"⟩⟩, by decide, commitSep01, rfl, by decide⟩,
   by decide, by decide⟩

/-- The first loop of `FindFirstTag` only calls `Next` on the tag iterator. -/
theorem FindFirstTag_collect_events (repo : Repository) :
    ∀ (steps : List (IterStep Reference)) (events : List IterEvent)
      (acc : ByCommitTimeTagInfo) (c0 : Option Commit),
      ∃ n, (FindFirstTag.collect repo steps events acc c0).2.events =
        events ++ List.replicate n IterEvent.Next
  | [], events, acc, c0 => ⟨1, by simp [FindFirstTag.collect]⟩
  | IterStep.fail e :: rest, events, acc, c0 => by
      by_cases he : e = Error.EOF
      · exact ⟨1, by simp [FindFirstTag.collect, he]⟩
      · exact ⟨1, by simp [FindFirstTag.collect, he]⟩
  | IterStep.item r :: rest, events, acc, c0 => by
      cases hc : repo.CommitObject r.Hash with
      | error e => exact ⟨1, by simp [FindFirstTag.collect, hc]⟩
      | ok c =>
          obtain ⟨n, hn⟩ := FindFirstTag_collect_events repo rest (events ++ [IterEvent.Next])
            (acc ++ [⟨r.Name.Short, r.Hash, c.Committer.When⟩]) (some c)
          exact ⟨n + 1, by simp [FindFirstTag.collect, hc, hn, List.replicate_succ]⟩

/-- On every exit path, the calls that `FindFirstTag` has made on the tag iterator
it acquired are calls of `Next` only: `Close` is not among them. -/
theorem FindFirstTag_never_closes (sort : SortAlgorithm) (w : Wayback) (it : ReferenceIter)
    (h : (FindFirstTag sort w).tagIter = some it) :
    ∃ n, it.events = List.replicate n IterEvent.Next ∧
      it.events.count IterEvent.Close = 0 := by
  have key : ∃ n, it.events = List.replicate n IterEvent.Next := by
    unfold FindFirstTag at h
    cases hT : w.Repository.Tags with
    | error e => simp [hT] at h
    | ok steps =>
        obtain ⟨n, hn⟩ := FindFirstTag_collect_events w.Repository steps [] [] none
        rcases hcol : FindFirstTag.collect w.Repository steps [] [] none with ⟨res, tags⟩
        rw [hcol] at hn
        cases res with
        | error e =>
            simp only [hT, hcol, Option.some.injEq] at h
            subst h
            exact ⟨n, by simpa using hn⟩
        | ok p =>
            simp only [hT, hcol, Option.some.injEq] at h
            subst h
            exact ⟨n, by simpa using hn⟩
  obtain ⟨n, hn⟩ := key
  refine ⟨n, hn, ?_⟩
  rw [hn]
  simp [List.count_replicate]

/-- C15: on a match (tags `v1`, `v2`, `v3`), on `NotFound` (tag `v1` only) and on a
failure of the enumeration (a read error after `v3`), the tag iterator that
`FindFirstTag` acquired has received calls of `Next` only when the method returns:
`Close` has not been called on it. -/
theorem FindFirstTag_leaves_tag_iterator_open :
    (FindFirstTag insertionSortAlgorithm (NewWayback
        (exampleRepo [IterStep.item tagV1, IterStep.item tagV2, IterStep.item tagV3])
        true 1504543416 exampleLog)) =
      ⟨⟨some commitSep02, "v3", none⟩, exampleLog,
        some ⟨[], [IterEvent.Next, IterEvent.Next, IterEvent.Next, IterEvent.Next]⟩⟩ ∧
    (FindFirstTag insertionSortAlgorithm (NewWayback
        (exampleRepo [IterStep.item tagV1]) true 1504543416 exampleLog)) =
      ⟨⟨some commitSep10, "", some Error.NotFound⟩, exampleLog,
        some ⟨[], [IterEvent.Next, IterEvent.Next]⟩⟩ ∧
    (FindFirstTag insertionSortAlgorithm (NewWayback
        (exampleRepo [IterStep.item tagV3, IterStep.fail (Error.other "read error"),
          IterStep.item tagV2])
        true 1504543416 exampleLog)) =
      ⟨⟨none, "", some (Error.other "read error")⟩, exampleLog,
        some ⟨[IterStep.item tagV2], [IterEvent.Next, IterEvent.Next]⟩⟩ := by
  decide


/-- C16: both policies are the same primitive. For tags that all resolve, let `cs`
hold exactly the tags' target commits, arranged newest-first. Then `FindFirstTag`
over the tags returns with a nil error exactly when `FindFirst` over `cs` does, for
the same cutoff, and when they do both return a commit and the two commits have
the same committer time. -/
theorem policies_same_primitive (sort : SortAlgorithm) (w w2 : Wayback)
    (refs : List Reference) (cs : List Commit)
    (hTags : w.Repository.Tags = Except.ok (refs.map IterStep.item))
    (hres : ∀ r ∈ refs, ∃ c, w.Repository.CommitObject r.Hash = Except.ok c)
    (hcs : ∀ c, c ∈ cs ↔ ∃ r ∈ refs, w.Repository.CommitObject r.Hash = Except.ok c)
    (hsorted : cs.Pairwise (fun a b => b.Committer.When ≤ a.Committer.When))
    (hiter : w2.CommitIter.pending = cs.map IterStep.item)
    (hWhen : w2.When = w.When) :
    ((FindFirstTag sort w).result.err = none ↔ (FindFirst w2).result.err = none) ∧
    ((FindFirstTag sort w).result.err = none →
      ∃ c1 c2, (FindFirstTag sort w).result.c = some c1 ∧
        (FindFirst w2).result.c = some c2 ∧
        c1.Committer.When = c2.Committer.When) := by
  by_cases hex : ∃ r ∈ refs, ∃ c, w.Repository.CommitObject r.Hash = Except.ok c ∧
      Before c.Committer.When w.When = true
  · obtain ⟨r1, hr1, c1, hc1, hb1, hresult1, hmax1⟩ :=
      FindFirstTag_selects sort w refs hTags hres hex
    have hc1mem : c1 ∈ cs := (hcs c1).2 ⟨r1, hr1, hc1⟩
    obtain ⟨pre, c2, post, hsplit, hpre, hb2, hresult2⟩ :=
      FindFirst_first_match w2 cs hiter ⟨c1, hc1mem, by rw [hWhen]; exact hb1⟩
    have hmax2 := first_match_newest w2.When pre post c2 (by rw [← hsplit]; exact hsorted) hpre
    rw [← hsplit] at hmax2
    have h12 : c1.Committer.When ≤ c2.Committer.When :=
      hmax2 c1 hc1mem (by rw [hWhen]; exact hb1)
    have hc2mem : c2 ∈ cs := by rw [hsplit]; simp
    obtain ⟨r2, hr2, hc2⟩ := (hcs c2).1 hc2mem
    have h21 : c2.Committer.When ≤ c1.Committer.When :=
      hmax1 r2 hr2 c2 hc2 (by rw [← hWhen]; exact hb2)
    rw [hresult1, hresult2]
    exact ⟨by simp, fun _ => ⟨c1, c2, rfl, rfl, le_antisymm h12 h21⟩⟩
  · obtain ⟨d1, h1⟩ := FindFirstTag_no_match sort w refs hTags hres hex
    have hnone : ∀ d ∈ cs, Before d.Committer.When w2.When = false := by
      intro d hd
      by_contra hb
      obtain ⟨r, hr, hc⟩ := (hcs d).1 hd
      exact hex ⟨r, hr, d, hc, by rw [← hWhen]; simpa using hb⟩
    rw [h1, FindFirst_exhausted w2 cs hiter hnone]
    simp

/-- C16, on the tags `v1`, `v2`, `v3` and their target commits newest-first (2017-09-10,
2017-09-02, 2017-08-15) with the cutoff 2017-09-04 19:43:36 +0300: both policies
return the commit of 2017-09-02. -/
theorem policies_same_primitive_witness :
    (FindFirstTag insertionSortAlgorithm (NewWayback
        (exampleRepo [IterStep.item tagV1, IterStep.item tagV2, IterStep.item tagV3])
        true 1504543416 exampleLog)).result = ⟨some commitSep02, "v3", none⟩ ∧
    (FindFirst (NewWayback (exampleRepo []) false 1504543416
        ⟨[IterStep.item commitSep10, IterStep.item commitSep02, IterStep.item commitAug15],
          []⟩)).result = ⟨some commitSep02, "", none⟩ ∧
    ∃ c1 c2, (FindFirstTag insertionSortAlgorithm (NewWayback
        (exampleRepo [IterStep.item tagV1, IterStep.item tagV2, IterStep.item tagV3])
        true 1504543416 exampleLog)).result.c = some c1 ∧
      (FindFirst (NewWayback (exampleRepo []) false 1504543416
        ⟨[IterStep.item commitSep10, IterStep.item commitSep02, IterStep.item commitAug15],
          []⟩)).result.c = some c2 ∧
      c1.Committer.When = c2.Committer.When :=
  ⟨by decide, by decide,
   (policies_same_primitive insertionSortAlgorithm
      (NewWayback
        (exampleRepo [IterStep.item tagV1, IterStep.item tagV2, IterStep.item tagV3])
        true 1504543416 exampleLog)
      (NewWayback (exampleRepo []) false 1504543416
        ⟨[IterStep.item commitSep10, IterStep.item commitSep02, IterStep.item commitAug15],
          []⟩)
      [tagV1, tagV2, tagV3] [commitSep10, commitSep02, commitAug15] rfl
      (by
        intro r hr
        simp only [List.mem_cons, List.mem_singleton, List.not_mem_nil, or_false] at hr
        rcases hr with rfl | rfl | rfl
        · exact ⟨commitSep10, rfl⟩
        · exact ⟨commitAug15, rfl⟩
        · exact ⟨commitSep02, rfl⟩)
      (by
        intro c
        constructor
        · intro hc
          simp only [List.mem_cons, List.mem_singleton, List.not_mem_nil, or_false] at hc
          rcases hc with rfl | rfl | rfl
          · exact ⟨tagV1, by simp, rfl⟩
          · exact ⟨tagV3, by simp, rfl⟩
          · exact ⟨tagV2, by simp, rfl⟩
        · rintro ⟨r, hr, hc⟩
          simp only [List.mem_cons, List.mem_singleton, List.not_mem_nil, or_false] at hr
          rcases hr with rfl | rfl | rfl
          · have h : (Except.ok commitSep10 : Except Error Commit) = Except.ok c := hc
            cases h
            simp
          · have h : (Except.ok commitAug15 : Except Error Commit) = Except.ok c := hc
            cases h
            simp
          · have h : (Except.ok commitSep02 : Except Error Commit) = Except.ok c := hc
            cases h
            simp)
      (by decide) rfl rfl).2 (by decide)⟩

/-- C17: order independence of the selected time. For two enumerations of the same
tags that are permutations of each other, all tags resolving, and the same cutoff,
`FindFirstTag` returns `NotFound` on both or a commit with a nil error on both, and in
the second case the two commits have the same committer time (the tag names may
differ). -/
theorem FindFirstTag_order_independent (sort : SortAlgorithm) (w1 w2 : Wayback)
    (refs1 refs2 : List Reference)
    (hperm : refs1.Perm refs2)
    (hTags1 : w1.Repository.Tags = Except.ok (refs1.map IterStep.item))
    (hTags2 : w2.Repository.Tags = Except.ok (refs2.map IterStep.item))
    (hObj : w2.Repository.CommitObject = w1.Repository.CommitObject)
    (hWhen : w2.When = w1.When)
    (hres : ∀ r ∈ refs1, ∃ c, w1.Repository.CommitObject r.Hash = Except.ok c) :
    ((FindFirstTag sort w1).result.err = some Error.NotFound ∧
      (FindFirstTag sort w2).result.err = some Error.NotFound) ∨
    (∃ c1 c2 t1 t2,
      (FindFirstTag sort w1).result = ⟨some c1, t1, none⟩ ∧
      (FindFirstTag sort w2).result = ⟨some c2, t2, none⟩ ∧
      c1.Committer.When = c2.Committer.When) := by
  rcases FindFirstTag_same_time sort sort w1 w2 refs1 refs2 hTags1 hTags2 hObj hWhen
    (fun _ => hperm.mem_iff) hres with h | h
  · exact Or.inl h
  · obtain ⟨r1, _, r2, _, c1, c2, _, _, hresult1, hresult2, heq, _⟩ := h
    exact Or.inr ⟨c1, c2, r1.Name.Short, r2.Name.Short, hresult1, hresult2, heq⟩

/-- C17, on the tags `r1` and `r2`, both at the commit of 2017-09-01, enumerated in
the two orders, with the cutoff 2017-09-04: the names returned differ (`r1` and
`r2`), the commits have the same committer time. -/
theorem FindFirstTag_order_independent_witness :
    (FindFirstTag insertionSortAlgorithm (NewWayback
        (exampleRepo [IterStep.item ⟨⟨"r1"⟩, ⟨"cc"⟩⟩, IterStep.item ⟨⟨"r2"⟩, ⟨"cc"⟩⟩])
        true 1504483200 exampleLog)).result = ⟨some commitSep01, "r1", none⟩ ∧
    (FindFirstTag insertionSortAlgorithm (NewWayback
        (exampleRepo [IterStep.item ⟨⟨"r2"⟩, ⟨"cc"⟩⟩, IterStep.item ⟨⟨"r1"⟩, ⟨"cc"⟩⟩])
        true 1504483200 exampleLog)).result = ⟨some commitSep01, "r2", none⟩ ∧
    (((FindFirstTag insertionSortAlgorithm (NewWayback
        (exampleRepo [IterStep.item ⟨⟨"r1"⟩, ⟨"cc"⟩⟩, IterStep.item ⟨⟨"r2"⟩, ⟨"cc"⟩⟩])
        true 1504483200 exampleLog)).result.err = some Error.NotFound ∧
      (FindFirstTag insertionSortAlgorithm (NewWayback
        (exampleRepo [IterStep.item ⟨⟨"r2"⟩, ⟨"cc"⟩⟩, IterStep.item ⟨⟨"r1"⟩, ⟨"cc"⟩⟩])
        true 1504483200 exampleLog)).result.err = some Error.NotFound) ∨
     (∃ c1 c2 t1 t2,
      (FindFirstTag insertionSortAlgorithm (NewWayback
        (exampleRepo [IterStep.item ⟨⟨"r1"⟩, ⟨"cc"⟩⟩, IterStep.item ⟨⟨"r2"⟩, ⟨"cc"⟩⟩])
        true 1504483200 exampleLog)).result = ⟨some c1, t1, none⟩ ∧
      (FindFirstTag insertionSortAlgorithm (NewWayback
        (exampleRepo [IterStep.item ⟨⟨"r2"⟩, ⟨"cc"⟩⟩, IterStep.item ⟨⟨"r1"⟩, ⟨"cc"⟩⟩])
        true 1504483200 exampleLog)).result = ⟨some c2, t2, none⟩ ∧
      c1.Committer.When = c2.Committer.When)) :=
  ⟨by decide, by decide,
   FindFirstTag_order_independent insertionSortAlgorithm
      (NewWayback
        (exampleRepo [IterStep.item ⟨⟨"r1"⟩, ⟨"cc"⟩⟩, IterStep.item ⟨⟨"r2"⟩, ⟨"cc"⟩⟩])
        true 1504483200 exampleLog)
      (NewWayback
        (exampleRepo [IterStep.item ⟨⟨"r2"⟩, ⟨"cc"⟩⟩, IterStep.item ⟨⟨"r1"⟩, ⟨"cc"⟩⟩])
        true 1504483200 exampleLog)
      [⟨⟨"r1"⟩, ⟨"cc"⟩⟩, ⟨⟨"r2"⟩, ⟨"cc"⟩⟩] [⟨⟨"r2"⟩, ⟨"cc"⟩⟩, ⟨⟨"r1"⟩, ⟨"cc"⟩⟩]
      (List.Perm.swap _ _ _) rfl rfl rfl rfl
      (by
        intro r hr
        simp only [List.mem_cons, List.mem_singleton, List.not_mem_nil, or_false] at hr
        rcases hr with rfl | rfl
        · exact ⟨commitSep01, rfl⟩
        · exact ⟨commitSep01, rfl⟩)⟩

/-- C18: the tagged result is never newer than the untagged one. For an error-free
commit log in non-increasing committer-time order and tags whose target commits
all occur in the log, if `FindFirstTag` returns commit `t` with a nil error then
`FindFirst` over the log, for the same cutoff, returns with a nil error a commit `u`
whose committer time is not before that of `t`. -/
theorem tagged_not_newer_than_untagged (sort : SortAlgorithm) (w : Wayback)
    (cs : List Commit) (refs : List Reference) (t : Commit)
    (hiter : w.CommitIter.pending = cs.map IterStep.item)
    (hsorted : cs.Pairwise (fun a b => b.Committer.When ≤ a.Committer.When))
    (hTags : w.Repository.Tags = Except.ok (refs.map IterStep.item))
    (htargets : ∀ r ∈ refs, ∃ c ∈ cs, w.Repository.CommitObject r.Hash = Except.ok c)
    (hc : (FindFirstTag sort w).result.c = some t)
    (herr : (FindFirstTag sort w).result.err = none) :
    ∃ u, (FindFirst w).result = ⟨some u, "", none⟩ ∧
      Before u.Committer.When t.Committer.When = false ∧
      t.Committer.When ≤ u.Committer.When := by
  have hres : ∀ r ∈ refs, ∃ c, w.Repository.CommitObject r.Hash = Except.ok c := by
    intro r hr
    obtain ⟨c, _, hrc⟩ := htargets r hr
    exact ⟨c, hrc⟩
  by_cases hex : ∃ r ∈ refs, ∃ c, w.Repository.CommitObject r.Hash = Except.ok c ∧
      Before c.Committer.When w.When = true
  · obtain ⟨r1, hr1, c1, hc1, hb1, hresult1, _⟩ :=
      FindFirstTag_selects sort w refs hTags hres hex
    rw [hresult1] at hc
    simp only [Option.some.injEq] at hc
    subst hc
    have hmem : c1 ∈ cs := by
      obtain ⟨c, hcmem, hrc⟩ := htargets r1 hr1
      rw [hc1] at hrc
      cases hrc
      exact hcmem
    obtain ⟨pre, u, post, hsplit, hpre, _, hresult2⟩ :=
      FindFirst_first_match w cs hiter ⟨c1, hmem, hb1⟩
    have hmax := first_match_newest w.When pre post u (by rw [← hsplit]; exact hsorted) hpre
    rw [← hsplit] at hmax
    have hle := hmax c1 hmem hb1
    exact ⟨u, hresult2, (Before_eq_false_iff _ _).2 hle, hle⟩
  · obtain ⟨d, hd⟩ := FindFirstTag_no_match sort w refs hTags hres hex
    rw [hd] at herr
    simp at herr

/-- C18, on the log 2017-09-10, 2017-09-01, 2017-08-20 with the tags `v1` (at the
commit of 2017-09-10) and `r3` (at the commit of 2017-08-20) and the cutoff
2017-09-04: the tagged result is the commit of 2017-08-20, the untagged result is
the commit of 2017-09-01, which is not before it. -/
theorem tagged_not_newer_than_untagged_witness :
    (FindFirstTag insertionSortAlgorithm (NewWayback
        (exampleRepo [IterStep.item tagV1, IterStep.item ⟨⟨"r3"⟩, ⟨"dd"⟩⟩])
        true 1504483200 exampleLog)).result = ⟨some commitAug20, "r3", none⟩ ∧
    (FindFirst (NewWayback
        (exampleRepo [IterStep.item tagV1, IterStep.item ⟨⟨"r3"⟩, ⟨"dd"⟩⟩])
        true 1504483200 exampleLog)).result = ⟨some commitSep01, "", none⟩ ∧
    ∃ u, (FindFirst (NewWayback
        (exampleRepo [IterStep.item tagV1, IterStep.item ⟨⟨"r3"⟩, ⟨"dd"⟩⟩])
        true 1504483200 exampleLog)).result = ⟨some u, "", none⟩ ∧
      Before u.Committer.When commitAug20.Committer.When = false ∧
      commitAug20.Committer.When ≤ u.Committer.When :=
  ⟨by decide, by decide,
   tagged_not_newer_than_untagged insertionSortAlgorithm
      (NewWayback
        (exampleRepo [IterStep.item tagV1, IterStep.item ⟨⟨"r3"⟩, ⟨"dd"⟩⟩])
        true 1504483200 exampleLog)
      [commitSep10, commitSep01, commitAug20] [tagV1, ⟨⟨"r3"⟩, ⟨"dd"⟩⟩] commitAug20
      rfl (by decide) rfl
      (by
        intro r hr
        simp only [List.mem_cons, List.mem_singleton, List.not_mem_nil, or_false] at hr
        rcases hr with rfl | rfl
        · exact ⟨commitSep10, by simp, rfl⟩
        · exact ⟨commitAug20, by simp, rfl⟩)
      (by decide) (by decide)⟩

end VgoWayback
